import Mathlib

/-!
Verification of the KittenNote pairing-and-sync engine (`src/js/sync.js`).

The development shallowly embeds the engine's logic: JS strings are
`List Char`, JS `Map`s and objects are insertion-ordered association lists,
and a JS `Date` is abstracted to its parsed epoch value `Option Int`, where
`none` stands for an invalid date (`NaN`); every comparison involving `NaN`
is false, which `jsDateGt` reproduces.
-/

namespace KittenNote

/-- A replicated entity (folder, notebook, or note).  `updatedAt` is the
value of `new Date(entity.updatedAt)`: `some t` for a valid ISO-8601
timestamp with epoch value `t`, `none` for a string that does not parse as
a date (`NaN`).  `payload` stands for the remaining fields of the record. -/
structure Entity where
  id : String
  updatedAt : Option Int
  payload : String
deriving DecidableEq

/-- One object store of the external database, keyed by entity id —
an insertion-ordered list of (id, record) pairs, as stored by
`database.js`. -/
abbrev Store := List (String × Entity)

/-- Models `db.getFolder/getNotebook/getNote(id)`: the record with the given id. -/
def storeGet : Store → String → Option Entity
  | [], _ => none
  | (k, v) :: rest, i => if k = i then some v else storeGet rest i

/-- Models `db.upsertFolder/upsertNotebook/upsertNote(entity)`: replace the record
with the same id, or append the record.  The sync engine always passes
complete records, for which the field spreads in `database.js` store exactly
the remote record. -/
def storeSet : Store → Entity → Store
  | [], e => [(e.id, e)]
  | (k, v) :: rest, e => if k = e.id then (k, e) :: rest else (k, v) :: storeSet rest e

/-- The comparison `new Date(remote.updatedAt) > new Date(local.updatedAt)`
used by `mergeRemoteData`: false whenever either date is invalid (`NaN`). -/
def jsDateGt : Option Int → Option Int → Bool
  | some a, some b => b < a
  | _, _ => false

/-- The body of one iteration of a per-collection loop of `mergeRemoteData`:
fetch the local record with the remote entity's id; insert the remote record
when absent, overwrite when the remote timestamp is strictly later, and
count the write; otherwise leave the store unchanged. -/
def mergeEntity (s : Store) (e : Entity) : Store × Nat :=
  match storeGet s e.id with
  | none => (storeSet s e, 1)
  | some l => if jsDateGt e.updatedAt l.updatedAt then (storeSet s e, 1) else (s, 0)

/-- One per-collection loop of `mergeRemoteData` (the `for ... of` over a
remote collection), threading the store and the merge count. -/
def mergeCollection (s : Store) (l : List Entity) : Store × Nat :=
  l.foldl (fun acc e => let r := mergeEntity acc.1 e; (r.1, acc.2 + r.2)) (s, 0)

/-- The three object stores consumed by the sync engine. -/
structure DB where
  folders : Store
  notebooks : Store
  notes : Store
deriving DecidableEq

/-- The payload of a `sync_data` / `sync_ack` message: three full entity
collections.  A missing collection is the empty list (the
`folders && folders.length > 0` guard in the source skips exactly the
iterations an empty list also skips). -/
structure Snapshot where
  folders : List Entity
  notebooks : List Entity
  notes : List Entity
deriving DecidableEq

/-- The per-collection merge counts returned by `mergeRemoteData`. -/
structure MergeCounts where
  folders : Nat
  notebooks : Nat
  notes : Nat
deriving DecidableEq

/-- Models `mergeRemoteData(message)`: merge the three remote collections into the
local stores — folders first, then notebooks, then notes — and return the
updated stores with the per-collection merge counts. -/
def mergeRemoteData (db : DB) (m : Snapshot) : DB × MergeCounts :=
  let f := mergeCollection db.folders m.folders
  let nb := mergeCollection db.notebooks m.notebooks
  let nt := mergeCollection db.notes m.notes
  (⟨f.1, nb.1, nt.1⟩, ⟨f.2, nb.2, nt.2⟩)

/-- Models `db.getAllFolders/getAllNotebooks/getAllNotes()`: all records of one
store. -/
def getAllEntities (s : Store) : List Entity := s.map (·.2)

/-- The engine state the sync message handlers read and write: the
`syncInProgress` flag, whether `currentDataChannel.readyState === 'open'`,
and the external database. -/
structure EngineState where
  syncInProgress : Bool
  channelOpen : Bool
  db : DB
deriving DecidableEq

/-- What `handleSyncRequest` did: reject because the channel is closed, or
send a `sync_data` message carrying the full local collections. -/
inductive RequestOutcome where
  | rejectedChannelClosed
  | sentSyncData (notes notebooks folders : List Entity)
deriving DecidableEq

/-- Models `handleSyncRequest(message)`: when the data channel is not open, warn
and return without touching the state; otherwise set `syncInProgress`,
gather the full local collections and send them as `sync_data`. -/
def handleSyncRequest (st : EngineState) : EngineState × RequestOutcome :=
  if !st.channelOpen then (st, .rejectedChannelClosed)
  else
    ({ st with syncInProgress := true },
     .sentSyncData (getAllEntities st.db.notes) (getAllEntities st.db.notebooks)
       (getAllEntities st.db.folders))

/-- What `handleSyncData` did: merge the snapshot and reply with a
`sync_ack` carrying the post-merge local collections, or merge without a
reply because the channel is closed. -/
inductive DataOutcome where
  | mergedAndAcked (counts : MergeCounts) (ackNotes ackNotebooks ackFolders : List Entity)
  | mergedNoAck (counts : MergeCounts)
deriving DecidableEq

/-- Models `handleSyncData(message)`: set `syncInProgress`, merge the remote
snapshot unconditionally, send a `sync_ack` with the post-merge local
collections when the channel is open, then clear `syncInProgress`. -/
def handleSyncData (st : EngineState) (m : Snapshot) : EngineState × DataOutcome :=
  let r := mergeRemoteData st.db m
  if st.channelOpen then
    ({ syncInProgress := false, channelOpen := st.channelOpen, db := r.1 },
     .mergedAndAcked r.2 (getAllEntities r.1.notes) (getAllEntities r.1.notebooks)
       (getAllEntities r.1.folders))
  else
    ({ syncInProgress := false, channelOpen := st.channelOpen, db := r.1 },
     .mergedNoAck r.2)

/-! ### Store lemmas -/

theorem storeGet_storeSet (s : Store) (e : Entity) (k : String) :
    storeGet (storeSet s e) k = if k = e.id then some e else storeGet s k := by
  induction s with
  | nil =>
    by_cases h : k = e.id
    · simp [storeGet, storeSet, h]
    · have h' : ¬ e.id = k := fun hh => h hh.symm
      simp [storeGet, storeSet, h, h']
  | cons p rest ih =>
    rcases p with ⟨k', v⟩
    by_cases h1 : k' = e.id
    · by_cases h2 : k' = k
      · have hk : k = e.id := h2 ▸ h1
        simp [storeGet, storeSet, h1, h2, hk]
      · have hk : ¬ k = e.id := by
          rw [← h1]
          exact fun hh => h2 hh.symm
        have hk' : ¬ e.id = k := h1 ▸ h2
        simp [storeGet, storeSet, h1, h2, hk, hk']
    · by_cases h2 : k' = k
      · have hk : ¬ k = e.id := h2 ▸ h1
        simp [storeGet, storeSet, h1, h2, hk]
      · simp [storeGet, storeSet, h1, h2, ih]

theorem jsDateGt_irrefl (a : Option Int) : jsDateGt a a = false := by
  cases a <;> simp [jsDateGt]

theorem jsDateGt_trans_false {a f w : Option Int} (h1 : jsDateGt a w = false)
    (h2 : jsDateGt f w = true) : jsDateGt a f = false := by
  cases a <;> cases f <;> cases w <;> simp_all [jsDateGt] <;> omega

/-! ### Idempotence machinery (C4) -/

/-- A remote entity whose merge step leaves the store unchanged: the store
already holds a record with its id whose timestamp the remote one does not
strictly beat. -/
def noOverwrite (s : Store) (e : Entity) : Prop :=
  ∃ w, storeGet s e.id = some w ∧ jsDateGt e.updatedAt w.updatedAt = false

theorem mergeEntity_of_noOverwrite {s : Store} {e : Entity}
    (h : noOverwrite s e) : mergeEntity s e = (s, 0) := by
  obtain ⟨w, hw, hgt⟩ := h
  simp [mergeEntity, hw, hgt]

theorem noOverwrite_self (s : Store) (e : Entity) :
    noOverwrite (mergeEntity s e).1 e := by
  cases hg : storeGet s e.id with
  | none =>
    refine ⟨e, ?_, jsDateGt_irrefl _⟩
    simp [mergeEntity, hg, storeGet_storeSet]
  | some l =>
    cases hgt : jsDateGt e.updatedAt l.updatedAt with
    | true =>
      refine ⟨e, ?_, jsDateGt_irrefl _⟩
      simp [mergeEntity, hg, hgt, storeGet_storeSet]
    | false =>
      refine ⟨l, ?_, hgt⟩
      simp [mergeEntity, hg, hgt]

theorem noOverwrite_mergeEntity {s : Store} {e : Entity} (f : Entity)
    (h : noOverwrite s e) : noOverwrite (mergeEntity s f).1 e := by
  obtain ⟨w, hw, hgt⟩ := h
  by_cases hid : e.id = f.id
  · cases hg : storeGet s f.id with
    | none =>
      rw [hid] at hw
      rw [hw] at hg
      exact absurd hg (by simp)
    | some l =>
      have hwl : w = l := by
        rw [hid] at hw
        rw [hw] at hg
        exact Option.some_inj.mp hg
      cases hfl : jsDateGt f.updatedAt l.updatedAt with
      | true =>
        refine ⟨f, ?_, jsDateGt_trans_false (hwl ▸ hgt) hfl⟩
        simp [mergeEntity, hg, hfl, storeGet_storeSet, hid]
      | false =>
        refine ⟨w, ?_, hgt⟩
        simp [mergeEntity, hg, hfl, hw]
  · refine ⟨w, ?_, hgt⟩
    cases hg : storeGet s f.id with
    | none => simp [mergeEntity, hg, storeGet_storeSet, hid, hw]
    | some l =>
      cases hfl : jsDateGt f.updatedAt l.updatedAt with
      | true => simp [mergeEntity, hg, hfl, storeGet_storeSet, hid, hw]
      | false => simp [mergeEntity, hg, hfl, hw]

theorem mergeCollection_shift (l : List Entity) (s : Store) (c : Nat) :
    l.foldl (fun acc e => let r := mergeEntity acc.1 e; (r.1, acc.2 + r.2)) (s, c)
      = ((mergeCollection s l).1, c + (mergeCollection s l).2) := by
  induction l generalizing s c with
  | nil => simp [mergeCollection]
  | cons x xs ih =>
    simp only [mergeCollection, List.foldl_cons]
    rw [ih, ih (mergeEntity s x).1]
    simp [Nat.add_assoc]

theorem mergeCollection_cons (s : Store) (x : Entity) (xs : List Entity) :
    mergeCollection s (x :: xs)
      = ((mergeCollection (mergeEntity s x).1 xs).1,
         (mergeEntity s x).2 + (mergeCollection (mergeEntity s x).1 xs).2) := by
  simp only [mergeCollection, List.foldl_cons]
  rw [mergeCollection_shift]
  simp [mergeCollection]

theorem noOverwrite_mergeCollection {s : Store} {e : Entity} (l : List Entity)
    (h : noOverwrite s e) : noOverwrite (mergeCollection s l).1 e := by
  induction l generalizing s with
  | nil => simpa [mergeCollection] using h
  | cons x xs ih =>
    rw [mergeCollection_cons]
    exact ih (noOverwrite_mergeEntity x h)

theorem noOverwrite_after_merge {s : Store} {e : Entity} {l : List Entity}
    (h : e ∈ l) : noOverwrite (mergeCollection s l).1 e := by
  induction l generalizing s with
  | nil => cases h
  | cons x xs ih =>
    rw [mergeCollection_cons]
    rcases List.mem_cons.mp h with rfl | hmem
    · exact noOverwrite_mergeCollection xs (noOverwrite_self s e)
    · exact ih hmem

theorem mergeCollection_noop {s : Store} {l : List Entity}
    (h : ∀ e ∈ l, noOverwrite s e) : mergeCollection s l = (s, 0) := by
  induction l with
  | nil => simp [mergeCollection]
  | cons x xs ih =>
    rw [mergeCollection_cons, mergeEntity_of_noOverwrite (h x (by simp))]
    simp only
    rw [ih (fun e he => h e (by simp [he]))]
    simp

theorem mergeCollection_idem (s : Store) (l : List Entity) :
    mergeCollection (mergeCollection s l).1 l = ((mergeCollection s l).1, 0) :=
  mergeCollection_noop (fun _ he => noOverwrite_after_merge he)

/-! ### Claim theorems: merge engine -/

/-- C4: merging the same `sync_data` snapshot a second time leaves all three
stores exactly as after the first merge and reports zero merged folders,
notebooks and notes. -/
theorem c4_merge_idempotent (db : DB) (m : Snapshot) :
    mergeRemoteData (mergeRemoteData db m).1 m
      = ((mergeRemoteData db m).1, ⟨0, 0, 0⟩) := by
  simp only [mergeRemoteData]
  rw [mergeCollection_idem, mergeCollection_idem, mergeCollection_idem]

/-- C3: for a remote entity with a valid timestamp `t2` merged against a
store holding a local record with the same id and valid timestamp `t1`, the
stored record afterwards is the remote record iff `t1 < t2`, and the
untouched local record otherwise (the whole store is unchanged in that
case); against a store with no record of that id, the remote record is
inserted as-is. -/
theorem c3_merge_timestamp_rule (s : Store) (e : Entity) (t1 t2 : Int)
    (l : Entity) (s₂ : Store)
    (h2 : e.updatedAt = some t2) (hl : storeGet s e.id = some l)
    (h1 : l.updatedAt = some t1) (habsent : storeGet s₂ e.id = none) :
    storeGet (mergeEntity s e).1 e.id = some (if t1 < t2 then e else l)
    ∧ (l ≠ e → (storeGet (mergeEntity s e).1 e.id = some e ↔ t1 < t2))
    ∧ (¬ t1 < t2 → (mergeEntity s e).1 = s)
    ∧ storeGet (mergeEntity s₂ e).1 e.id = some e := by
  have hgt : jsDateGt e.updatedAt l.updatedAt = decide (t1 < t2) := by
    simp [jsDateGt, h2, h1]
  refine ⟨?_, ?_, ?_, ?_⟩
  · by_cases hlt : t1 < t2
    · simp [mergeEntity, hl, hgt, hlt, storeGet_storeSet]
    · simp [mergeEntity, hl, hgt, hlt]
  · intro hne
    constructor
    · intro hstored
      by_contra hlt
      simp [mergeEntity, hl, hgt, hlt] at hstored
      exact hne hstored
    · intro hlt
      simp [mergeEntity, hl, hgt, hlt, storeGet_storeSet]
  · intro hlt
    simp [mergeEntity, hl, hgt, hlt]
  · simp [mergeEntity, habsent, storeGet_storeSet]

/-- C3 witness at concrete inputs. -/
theorem c3_merge_timestamp_rule_witness :
    storeGet (mergeEntity [("a", ⟨"a", some 1, "old"⟩)] ⟨"a", some 2, "new"⟩).1 "a"
      = some (if (1 : Int) < 2 then ⟨"a", some 2, "new"⟩ else ⟨"a", some 1, "old"⟩)
    ∧ ((⟨"a", some 1, "old"⟩ : Entity) ≠ ⟨"a", some 2, "new"⟩ →
        (storeGet (mergeEntity [("a", ⟨"a", some 1, "old"⟩)] ⟨"a", some 2, "new"⟩).1 "a"
          = some ⟨"a", some 2, "new"⟩ ↔ (1 : Int) < 2))
    ∧ (¬ (1 : Int) < 2 →
        (mergeEntity [("a", ⟨"a", some 1, "old"⟩)] ⟨"a", some 2, "new"⟩).1
          = [("a", ⟨"a", some 1, "old"⟩)])
    ∧ storeGet (mergeEntity [] (⟨"a", some 2, "new"⟩ : Entity)).1 "a"
        = some ⟨"a", some 2, "new"⟩ :=
  c3_merge_timestamp_rule [("a", ⟨"a", some 1, "old"⟩)] ⟨"a", some 2, "new"⟩ 1 2
    ⟨"a", some 1, "old"⟩ [] (by decide) (by decide) (by decide) (by decide)

/-- C10: a remote entity whose `updatedAt` does not parse as a date (`NaN`)
never overwrites an existing local record with the same id — the merge step
is a no-op — yet when no local record with that id exists it is still
inserted and counted as merged. -/
theorem c10_invalid_date_merge (s : Store) (e : Entity) (l : Entity) (s₂ : Store)
    (hinv : e.updatedAt = none) (hl : storeGet s e.id = some l)
    (habsent : storeGet s₂ e.id = none) :
    mergeEntity s e = (s, 0)
    ∧ (mergeEntity s₂ e).1 = storeSet s₂ e
    ∧ storeGet (mergeEntity s₂ e).1 e.id = some e
    ∧ (mergeEntity s₂ e).2 = 1 := by
  have hgt : jsDateGt e.updatedAt l.updatedAt = false := by
    rw [hinv]; cases l.updatedAt <;> simp [jsDateGt]
  refine ⟨by simp [mergeEntity, hl, hgt], by simp [mergeEntity, habsent], ?_, ?_⟩
  · simp [mergeEntity, habsent, storeGet_storeSet]
  · simp [mergeEntity, habsent]

/-- C10 witness at concrete inputs. -/
theorem c10_invalid_date_merge_witness :
    mergeEntity [("a", ⟨"a", some 1, "old"⟩)] ⟨"a", none, "new"⟩
      = ([("a", ⟨"a", some 1, "old"⟩)], 0)
    ∧ (mergeEntity [] (⟨"a", none, "new"⟩ : Entity)).1 = storeSet [] ⟨"a", none, "new"⟩
    ∧ storeGet (mergeEntity [] (⟨"a", none, "new"⟩ : Entity)).1 "a"
        = some ⟨"a", none, "new"⟩
    ∧ (mergeEntity [] (⟨"a", none, "new"⟩ : Entity)).2 = 1 :=
  c10_invalid_date_merge [("a", ⟨"a", some 1, "old"⟩)] ⟨"a", none, "new"⟩
    ⟨"a", some 1, "old"⟩ [] (by decide) (by decide) (by decide)

/-- C1 counterexample: with `syncInProgress` already set and the channel
open, an incoming `sync_request` is processed (a `sync_data` reply is sent)
and an incoming `sync_data` is processed (merged and acknowledged) — neither
handler rejects the attempt, contradicting the claimed `syncInProgress`
guard. -/
theorem c1_counterexample :
    (⟨true, true, ⟨[], [], []⟩⟩ : EngineState).syncInProgress = true
    ∧ (handleSyncRequest ⟨true, true, ⟨[], [], []⟩⟩).2 = .sentSyncData [] [] []
    ∧ (handleSyncData ⟨true, true, ⟨[], [], []⟩⟩ ⟨[], [], []⟩).2
        = .mergedAndAcked ⟨0, 0, 0⟩ [] [] [] := by
  refine ⟨rfl, ?_, ?_⟩ <;> decide

/-- C1 amended: the handlers never consult `syncInProgress`; a
`sync_request` is rejected iff the data channel is not open (the state is
then untouched), and with the channel open it is processed — the flag is set
and the full local collections are sent — regardless of an outstanding sync;
`sync_data` is always merged, regardless of the flag. -/
theorem c1_amended (st₁ st₂ : EngineState) (m : Snapshot)
    (h1 : st₁.channelOpen = false) (h2 : st₂.channelOpen = true) :
    handleSyncRequest st₁ = (st₁, .rejectedChannelClosed)
    ∧ (handleSyncRequest st₂).2
        = .sentSyncData (getAllEntities st₂.db.notes) (getAllEntities st₂.db.notebooks)
            (getAllEntities st₂.db.folders)
    ∧ (handleSyncRequest st₂).1.syncInProgress = true
    ∧ (handleSyncData st₂ m).1.db = (mergeRemoteData st₂.db m).1
    ∧ (handleSyncData st₂ m).2
        = .mergedAndAcked (mergeRemoteData st₂.db m).2
            (getAllEntities (mergeRemoteData st₂.db m).1.notes)
            (getAllEntities (mergeRemoteData st₂.db m).1.notebooks)
            (getAllEntities (mergeRemoteData st₂.db m).1.folders) := by
  refine ⟨by simp [handleSyncRequest, h1], by simp [handleSyncRequest, h2], ?_, ?_, ?_⟩
  · simp [handleSyncRequest, h2]
  · simp [handleSyncData, h2]
  · simp [handleSyncData, h2]

/-- C1 amended witness at concrete inputs (`syncInProgress` set in both
states). -/
theorem c1_amended_witness :
    handleSyncRequest ⟨true, false, ⟨[], [], []⟩⟩
      = (⟨true, false, ⟨[], [], []⟩⟩, .rejectedChannelClosed)
    ∧ (handleSyncRequest ⟨true, true, ⟨[], [], []⟩⟩).2 = .sentSyncData [] [] []
    ∧ (handleSyncRequest ⟨true, true, ⟨[], [], []⟩⟩).1.syncInProgress = true
    ∧ (handleSyncData ⟨true, true, ⟨[], [], []⟩⟩ ⟨[], [], []⟩).1.db
        = (mergeRemoteData ⟨[], [], []⟩ ⟨[], [], []⟩).1
    ∧ (handleSyncData ⟨true, true, ⟨[], [], []⟩⟩ ⟨[], [], []⟩).2
        = .mergedAndAcked (mergeRemoteData ⟨[], [], []⟩ ⟨[], [], []⟩).2
            (getAllEntities (mergeRemoteData (⟨[], [], []⟩ : DB) (⟨[], [], []⟩ : Snapshot)).1.notes)
            (getAllEntities (mergeRemoteData (⟨[], [], []⟩ : DB) (⟨[], [], []⟩ : Snapshot)).1.notebooks)
            (getAllEntities (mergeRemoteData (⟨[], [], []⟩ : DB) (⟨[], [], []⟩ : Snapshot)).1.folders) := by
  have h := c1_amended ⟨true, false, ⟨[], [], []⟩⟩ ⟨true, true, ⟨[], [], []⟩⟩
    ⟨[], [], []⟩ rfl rfl
  simpa using h

/-! ### Signaling fragments: `splitIntoChunks`, `wrapChunk`, `parseChunk`,
`handleScannedPayload` (C2, C6) -/

/-- One decimal digit character. -/
def digitChar (d : Nat) : Char :=
  match d with
  | 0 => '0' | 1 => '1' | 2 => '2' | 3 => '3' | 4 => '4'
  | 5 => '5' | 6 => '6' | 7 => '7' | 8 => '8' | _ => '9'

/-- Decimal rendering, most significant digit first (`fuel` bounds the
number of division steps; `natToChars` supplies enough). -/
def natToCharsAux : Nat → Nat → List Char
  | 0, _ => []
  | fuel + 1, n =>
    if n < 10 then [digitChar n]
    else natToCharsAux fuel (n / 10) ++ [digitChar (n % 10)]

/-- The decimal rendering of `index` and `total` done by the template
string in `wrapChunk`. -/
def natToChars (n : Nat) : List Char := natToCharsAux (n + 1) n

/-- Models `parseInt(s, 10)` on a run of decimal digits. -/
def charsToNat (l : List Char) : Nat :=
  l.foldl (fun acc c => acc * 10 + (c.toNat - 48)) 0

/-- Models `splitIntoChunks(text, chunkSize)` with an explicit fuel (the source
loop advances by `chunkSize` per iteration; `text.length` steps suffice). -/
def splitIntoChunksAux : Nat → List Char → Nat → List (List Char)
  | _, [], _ => []
  | 0, _ :: _, _ => []
  | fuel + 1, c :: rest, n => (c :: rest).take n :: splitIntoChunksAux fuel ((c :: rest).drop n) n

/-- Models `splitIntoChunks(text, chunkSize = 1500)`: slices of `chunkSize`
characters, in order.  The source loop does not terminate for
`chunkSize = 0`; that case is mapped to no chunks and every claim about
splitting assumes a positive chunk size. -/
def splitIntoChunks (text : List Char) (n : Nat) : List (List Char) :=
  if n = 0 then [] else splitIntoChunksAux text.length text n

/-- Models `wrapChunk(index, total, payload)`: the fragment wire format
`KTN1:<index>/<total>:<payload>`. -/
def wrapChunk (index total : Nat) (payload : List Char) : List Char :=
  'K' :: 'T' :: 'N' :: '1' :: ':' ::
    (natToChars index ++ '/' :: (natToChars total ++ ':' :: payload))

/-- A parsed signaling fragment. -/
structure Fragment where
  index : Nat
  total : Nat
  payload : List Char
deriving DecidableEq

/-- Models `parseChunk(raw)`: match `^KTN1:(\d+)\/(\d+):([\s\S]+)$` — a literal
prefix, two maximal nonempty digit runs, and a nonempty payload that may
contain anything. -/
def parseChunk (raw : List Char) : Option Fragment :=
  match raw with
  | 'K' :: 'T' :: 'N' :: '1' :: ':' :: rest =>
    let d1 := rest.takeWhile Char.isDigit
    match rest.dropWhile Char.isDigit with
    | '/' :: rest2 =>
      let d2 := rest2.takeWhile Char.isDigit
      match rest2.dropWhile Char.isDigit with
      | ':' :: payload =>
        if d1 = [] ∨ d2 = [] ∨ payload = [] then none
        else some ⟨charsToNat d1, charsToNat d2, payload⟩
      | _ => none
    | _ => none
  | _ => none

/-- The scan-side reassembly map `scanChunks` (a JS `Map`, insertion
ordered), keyed by fragment index. -/
abbrev ChunkMap := List (Nat × List Char)

def mapGet : ChunkMap → Nat → Option (List Char)
  | [], _ => none
  | (k, v) :: rest, i => if k = i then some v else mapGet rest i

/-- Models `Map.set`: overwrite the existing entry in place, or append. -/
def mapSet : ChunkMap → Nat → List Char → ChunkMap
  | [], i, v => [(i, v)]
  | (k, w) :: rest, i, v => if k = i then (k, v) :: rest else (k, w) :: mapSet rest i v

/-- The scan state fields of the wizard used by `handleScannedPayload`. -/
structure ScanState where
  scanChunks : ChunkMap
  scanChunkTotal : Nat
deriving DecidableEq

/-- The state established by `resetScanChunks()`. -/
def resetScanChunks : ScanState := ⟨[], 0⟩

inductive ScanResult where
  | complete (data : List Char)
  | incomplete
deriving DecidableEq

/-- The final loop of `handleScannedPayload`: slots `i = start ...`,
`steps` of them, each `this.scanChunks.get(i)` with a missing entry as the empty string. -/
def collectScanChunks (m : ChunkMap) : Nat → Nat → List (List Char)
  | _, 0 => []
  | i, steps + 1 => ((mapGet m i).getD []) :: collectScanChunks m (i + 1) steps

/-- The ordered join over slots `1..total` at the end of
`handleScannedPayload`, missing slots rendered empty. -/
def joinScanChunks (m : ChunkMap) (total : Nat) : List Char :=
  (collectScanChunks m 1 total).flatten

/-- Models `handleScannedPayload(raw, target)` without its UI side effects: a raw
scan that is not a fragment is returned unchanged as a complete payload; a
fragment first updates `scanChunkTotal`
(`if (!this.scanChunkTotal || this.scanChunkTotal !== chunk.total)`), is
then stored under its index, and once the map holds `scanChunkTotal`
entries the ordered join is returned. -/
def handleScannedPayload (st : ScanState) (raw : List Char) : ScanState × ScanResult :=
  match parseChunk raw with
  | none => (st, .complete raw)
  | some c =>
    let total := if st.scanChunkTotal = 0 ∨ st.scanChunkTotal ≠ c.total then c.total
                 else st.scanChunkTotal
    let chunks := mapSet st.scanChunks c.index c.payload
    if chunks.length < total then (⟨chunks, total⟩, .incomplete)
    else (⟨chunks, total⟩, .complete (joinScanChunks chunks total))

/-- Feeding a sequence of raw scans through `handleScannedPayload`,
keeping the final state. -/
def feedScans (st : ScanState) (raws : List (List Char)) : ScanState :=
  raws.foldl (fun s raw => (handleScannedPayload s raw).1) st

/-- The wrapped fragment carrying the 1-based index `j` of the chunk list
`l`, as produced by the QR carousel (`wrapChunk(index + 1, chunks.length,
chunks[index])`). -/
def fragmentRaw (l : List (List Char)) (j : Nat) : List Char :=
  wrapChunk j l.length (l.getD (j - 1) [])

/-! ### Digit and split lemmas -/

theorem digitChar_isDigit {d : Nat} (h : d < 10) : (digitChar d).isDigit = true := by
  interval_cases d <;> decide

theorem digitChar_val {d : Nat} (h : d < 10) : (digitChar d).toNat - 48 = d := by
  interval_cases d <;> decide

theorem natToCharsAux_spec :
    ∀ fuel n, n < fuel →
      charsToNat (natToCharsAux fuel n) = n
      ∧ natToCharsAux fuel n ≠ []
      ∧ ∀ c ∈ natToCharsAux fuel n, c.isDigit = true := by
  intro fuel
  induction fuel with
  | zero => intro n h; omega
  | succ f ih =>
    intro n h
    by_cases h10 : n < 10
    · refine ⟨?_, by simp [natToCharsAux, h10], ?_⟩
      · simp [natToCharsAux, h10, charsToNat, digitChar_val h10]
      · intro c hc
        simp [natToCharsAux, h10] at hc
        subst hc
        exact digitChar_isDigit h10
    · have hdiv : n / 10 < f := by omega
      obtain ⟨ihv, ihne, ihd⟩ := ih (n / 10) hdiv
      refine ⟨?_, by simp [natToCharsAux, h10], ?_⟩
      · simp only [natToCharsAux, h10, if_false]
        unfold charsToNat at ihv ⊢
        rw [List.foldl_append, ihv]
        simp only [List.foldl_cons, List.foldl_nil]
        rw [digitChar_val (Nat.mod_lt n (by omega))]
        omega
      · intro c hc
        simp only [natToCharsAux, h10, if_false, List.mem_append, List.mem_singleton] at hc
        rcases hc with h1 | h2
        · exact ihd c h1
        · subst h2
          exact digitChar_isDigit (Nat.mod_lt n (by omega))

theorem charsToNat_natToChars (n : Nat) : charsToNat (natToChars n) = n :=
  (natToCharsAux_spec (n + 1) n (by omega)).1

theorem natToChars_ne_nil (n : Nat) : natToChars n ≠ [] :=
  (natToCharsAux_spec (n + 1) n (by omega)).2.1

theorem natToChars_digits (n : Nat) : ∀ c ∈ natToChars n, c.isDigit = true :=
  (natToCharsAux_spec (n + 1) n (by omega)).2.2

theorem takeWhile_digits_append (d : List Char) (c : Char) (rest : List Char)
    (hd : ∀ x ∈ d, x.isDigit = true) (hc : c.isDigit = false) :
    (d ++ c :: rest).takeWhile Char.isDigit = d := by
  induction d with
  | nil => simp [List.takeWhile_cons, hc]
  | cons x xs ih =>
    have hx : x.isDigit = true := hd x (by simp)
    simp only [List.cons_append, List.takeWhile_cons, hx, if_true]
    rw [ih (fun y hy => hd y (by simp [hy]))]

theorem dropWhile_digits_append (d : List Char) (c : Char) (rest : List Char)
    (hd : ∀ x ∈ d, x.isDigit = true) (hc : c.isDigit = false) :
    (d ++ c :: rest).dropWhile Char.isDigit = c :: rest := by
  induction d with
  | nil => simp [List.dropWhile_cons, hc]
  | cons x xs ih =>
    have hx : x.isDigit = true := hd x (by simp)
    simp only [List.cons_append, List.dropWhile_cons, hx, if_true]
    exact ih (fun y hy => hd y (by simp [hy]))

/-- Parsing inverts wrapping: a wrapped fragment with a nonempty payload
parses back to its index, total and payload. -/
theorem parseChunk_wrapChunk (i total : Nat) (p : List Char) (hp : p ≠ []) :
    parseChunk (wrapChunk i total p) = some ⟨i, total, p⟩ := by
  have hslash : ('/').isDigit = false := by decide
  have hcolon : (':').isDigit = false := by decide
  unfold wrapChunk parseChunk
  simp only [takeWhile_digits_append _ _ _ (natToChars_digits i) hslash,
    dropWhile_digits_append _ _ _ (natToChars_digits i) hslash,
    takeWhile_digits_append _ _ _ (natToChars_digits total) hcolon,
    dropWhile_digits_append _ _ _ (natToChars_digits total) hcolon]
  simp [natToChars_ne_nil, hp, charsToNat_natToChars]

theorem splitIntoChunksAux_fuel (n : Nat) (hn : 0 < n) :
    ∀ fuel₁ fuel₂ l, l.length ≤ fuel₁ → l.length ≤ fuel₂ →
      splitIntoChunksAux fuel₁ l n = splitIntoChunksAux fuel₂ l n := by
  intro fuel₁
  induction fuel₁ with
  | zero =>
    intro fuel₂ l h1 _
    have : l = [] := List.eq_nil_of_length_eq_zero (by omega)
    subst this
    cases fuel₂ <;> rfl
  | succ f ih =>
    intro fuel₂ l h1 h2
    cases l with
    | nil => cases fuel₂ <;> rfl
    | cons c rest =>
      obtain ⟨f₂, rfl⟩ : ∃ g, fuel₂ = g + 1 := ⟨fuel₂ - 1, by simp at h2; omega⟩
      simp only [splitIntoChunksAux]
      rw [ih f₂ _ (by simp [List.length_drop] at h1 ⊢; omega)
        (by simp [List.length_drop] at h2 ⊢; omega)]

theorem splitIntoChunks_nil (n : Nat) : splitIntoChunks [] n = [] := by
  unfold splitIntoChunks
  cases n <;> rfl

theorem splitIntoChunks_cons (c : Char) (rest : List Char) (n : Nat) (hn : 0 < n) :
    splitIntoChunks (c :: rest) n
      = (c :: rest).take n :: splitIntoChunks ((c :: rest).drop n) n := by
  unfold splitIntoChunks
  rw [if_neg (by omega), if_neg (by omega)]
  simp only [List.length_cons, splitIntoChunksAux]
  rw [splitIntoChunksAux_fuel n hn _ _ _ (by simp [List.length_drop]; omega) le_rfl]

theorem flatten_splitIntoChunks_aux (n : Nat) (hn : 0 < n) :
    ∀ (fuel : Nat) (s : List Char), s.length ≤ fuel →
      (splitIntoChunks s n).flatten = s := by
  intro fuel
  induction fuel with
  | zero =>
    intro s hs
    have : s = [] := List.eq_nil_of_length_eq_zero (by omega)
    subst this
    simp [splitIntoChunks_nil]
  | succ f ih =>
    intro s hs
    cases s with
    | nil => simp [splitIntoChunks_nil]
    | cons c rest =>
      rw [splitIntoChunks_cons c rest n hn, List.flatten_cons,
        ih _ (by simp [List.length_drop] at hs ⊢; omega)]
      exact List.take_append_drop _ _

/-- Joining the chunks of `splitIntoChunks` in order reproduces the
input. -/
theorem flatten_splitIntoChunks (s : List Char) (n : Nat) (hn : 0 < n) :
    (splitIntoChunks s n).flatten = s :=
  flatten_splitIntoChunks_aux n hn s.length s le_rfl

theorem splitIntoChunks_chunk_ne_nil (n : Nat) (hn : 0 < n) :
    ∀ (fuel : Nat) (s : List Char), s.length ≤ fuel →
      ∀ ch ∈ splitIntoChunks s n, ch ≠ [] := by
  intro fuel
  induction fuel with
  | zero =>
    intro s hs
    have : s = [] := List.eq_nil_of_length_eq_zero (by omega)
    subst this
    simp [splitIntoChunks_nil]
  | succ f ih =>
    intro s hs ch hch
    cases s with
    | nil => simp [splitIntoChunks_nil] at hch
    | cons c rest =>
      rw [splitIntoChunks_cons c rest n hn] at hch
      rcases List.mem_cons.mp hch with rfl | hmem
      · simp [List.take_eq_nil_iff]
        omega
      · exact ih _ (by simp [List.length_drop] at hs ⊢; omega) ch hmem

/-! ### Scan map lemmas -/

theorem mapSet_fresh (m : ChunkMap) (i : Nat) (v : List Char)
    (h : mapGet m i = none) : mapSet m i v = m ++ [(i, v)] := by
  induction m with
  | nil => rfl
  | cons p rest ih =>
    rcases p with ⟨k, w⟩
    by_cases hk : k = i
    · simp [mapGet, hk] at h
    · simp only [mapGet, hk, if_neg, ite_false] at h
      simp [mapSet, hk, ih h]

theorem mapGet_append (m₁ m₂ : ChunkMap) (j : Nat) :
    mapGet (m₁ ++ m₂) j
      = match mapGet m₁ j with
        | some v => some v
        | none => mapGet m₂ j := by
  induction m₁ with
  | nil => simp [mapGet]
  | cons p rest ih =>
    rcases p with ⟨k, w⟩
    by_cases hk : k = j <;> simp [mapGet, hk, ih]

theorem mapGet_map_self (js : List Nat) (g : Nat → List Char) (k : Nat)
    (hk : k ∈ js) : mapGet (js.map (fun j => (j, g j))) k = some (g k) := by
  induction js with
  | nil => cases hk
  | cons j rest ih =>
    by_cases h : j = k
    · subst h
      simp [mapGet]
    · rcases List.mem_cons.mp hk with rfl | hmem
      · exact absurd rfl h
      · simp [mapGet, h, ih hmem]

theorem total_update (t c : Nat) : (if t = 0 ∨ t ≠ c then c else t) = c := by
  by_cases h : t = 0 ∨ t ≠ c
  · simp [h]
  · push_neg at h
    simp [h.2]

theorem handleScannedPayload_fst (st : ScanState) (raw : List Char) (c : Fragment)
    (hparse : parseChunk raw = some c) :
    (handleScannedPayload st raw).1
      = ⟨mapSet st.scanChunks c.index c.payload, c.total⟩ := by
  unfold handleScannedPayload
  rw [hparse]
  simp only [total_update]
  by_cases h : (mapSet st.scanChunks c.index c.payload).length < c.total <;> simp [h]

theorem getD_mem (l : List (List Char)) (k : Nat) (hk : k < l.length) :
    l.getD k [] ∈ l := by
  rw [List.getD_eq_getElem?_getD, List.getElem?_eq_getElem hk]
  exact List.getElem_mem hk

/-- Feeding wrapped fragments with fresh indices appends them to the scan
map in arrival order and leaves `scanChunkTotal` at the fragment total. -/
theorem feedScans_fresh (l : List (List Char)) (hl : ∀ ch ∈ l, ch ≠ []) :
    ∀ (idxs : List Nat) (m : ChunkMap) (t : Nat),
      (∀ j ∈ idxs, mapGet m j = none) → idxs.Nodup →
      (∀ j ∈ idxs, 1 ≤ j ∧ j ≤ l.length) →
      feedScans ⟨m, t⟩ (idxs.map (fragmentRaw l))
        = ⟨m ++ idxs.map (fun j => (j, l.getD (j - 1) [])),
           if idxs = [] then t else l.length⟩ := by
  intro idxs
  induction idxs with
  | nil => intro m t _ _ _; simp [feedScans]
  | cons j rest ih =>
    intro m t hfresh hnodup hbound
    obtain ⟨hj1, hjle⟩ := hbound j (by simp)
    have hchunk : l.getD (j - 1) [] ≠ [] := hl _ (getD_mem l (j - 1) (by omega))
    have hparse : parseChunk (fragmentRaw l j) = some ⟨j, l.length, l.getD (j - 1) []⟩ :=
      parseChunk_wrapChunk _ _ _ hchunk
    have hstep : (handleScannedPayload ⟨m, t⟩ (fragmentRaw l j)).1
        = ⟨m ++ [(j, l.getD (j - 1) [])], l.length⟩ := by
      rw [handleScannedPayload_fst _ _ _ hparse]
      simp only
      rw [mapSet_fresh m j _ (hfresh j (by simp))]
    have hfresh' : ∀ j' ∈ rest, mapGet (m ++ [(j, l.getD (j - 1) [])]) j' = none := by
      intro j' hj'
      rw [mapGet_append, hfresh j' (by simp [hj'])]
      have : j ≠ j' := fun hh => (List.nodup_cons.mp hnodup).1 (hh ▸ hj')
      simp [mapGet, this]
    have hrest := ih (m ++ [(j, l.getD (j - 1) [])]) l.length hfresh'
      (List.nodup_cons.mp hnodup).2 (fun j' hj' => hbound j' (by simp [hj']))
    simp only [List.map_cons, feedScans, List.foldl_cons]
    rw [show (handleScannedPayload ⟨m, t⟩ (fragmentRaw l j)).1
        = ⟨m ++ [(j, l.getD (j - 1) [])], l.length⟩ from hstep]
    unfold feedScans at hrest
    rw [hrest]
    by_cases hr : rest = [] <;> simp [hr]

theorem collect_of_mapGet (m : ChunkMap) :
    ∀ (l : List (List Char)) (start : Nat),
      (∀ k, k < l.length → mapGet m (start + k) = some (l.getD k [])) →
      collectScanChunks m start l.length = l := by
  intro l
  induction l with
  | nil => intro start _; rfl
  | cons x xs ih =>
    intro start h
    have h0 := h 0 (by simp)
    simp only [Nat.add_zero, List.getD_cons_zero] at h0
    simp only [List.length_cons, collectScanChunks, h0, Option.getD_some]
    congr 1
    refine ih (start + 1) (fun k hk => ?_)
    have := h (k + 1) (by simp; omega)
    simpa [Nat.add_comm, Nat.add_assoc, Nat.add_left_comm] using this

theorem mapGet_map_not_mem (js : List Nat) (g : Nat → List Char) (k : Nat)
    (hk : k ∉ js) : mapGet (js.map (fun j => (j, g j))) k = none := by
  induction js with
  | nil => rfl
  | cons j rest ih =>
    have hj : j ≠ k := fun hh => hk (by simp [hh])
    simp only [List.map_cons, mapGet, hj, if_neg, ite_false]
    exact ih (fun hh => hk (by simp [hh]))

/-- Scanning all wrapped fragments of a split payload, in an arbitrary
order, reassembles the payload at the last fragment. -/
theorem scan_reassembly (s : List Char) (n : Nat) (idxs : List Nat) (i : Nat)
    (hn : 0 < n)
    (hperm : (idxs ++ [i]).Perm (List.range' 1 (splitIntoChunks s n).length)) :
    (handleScannedPayload
       (feedScans resetScanChunks (idxs.map (fragmentRaw (splitIntoChunks s n))))
       (fragmentRaw (splitIntoChunks s n) i)).2
      = .complete s := by
  set l := splitIntoChunks s n with hldef
  have hchunks : ∀ ch ∈ l, ch ≠ [] :=
    splitIntoChunks_chunk_ne_nil n hn s.length s le_rfl
  have hnodup : (idxs ++ [i]).Nodup :=
    hperm.symm.nodup (List.nodup_range' 1 l.length)
  have hmemb : ∀ j ∈ idxs ++ [i], 1 ≤ j ∧ j ≤ l.length := by
    intro j hj
    have hjr : j ∈ List.range' 1 l.length := hperm.mem_iff.mp hj
    rw [List.mem_range'_1] at hjr
    omega
  have hnd := List.nodup_append.mp hnodup
  have hifresh : i ∉ idxs := fun hcon => (hnd.2.2 hcon) (by simp)
  have hlen : idxs.length + 1 = l.length := by
    have := hperm.length_eq
    simpa using this
  have hfeed := feedScans_fresh l hchunks idxs [] 0
    (fun j _ => rfl) hnd.1 (fun j hj => hmemb j (by simp [hj]))
  obtain ⟨hi1, hile⟩ := hmemb i (by simp)
  have hchunki : l.getD (i - 1) [] ≠ [] := hchunks _ (getD_mem l (i - 1) (by omega))
  have hparse : parseChunk (fragmentRaw l i) = some ⟨i, l.length, l.getD (i - 1) []⟩ :=
    parseChunk_wrapChunk _ _ _ hchunki
  have hM : mapGet (idxs.map (fun j => (j, l.getD (j - 1) []))) i = none :=
    mapGet_map_not_mem _ _ _ hifresh
  rw [show resetScanChunks = (⟨[], 0⟩ : ScanState) from rfl, hfeed]
  unfold handleScannedPayload
  rw [hparse]
  simp only [total_update, List.nil_append]
  rw [mapSet_fresh _ _ _ hM]
  have hlen2 : (idxs.map (fun j => (j, l.getD (j - 1) []))
      ++ [(i, l.getD (i - 1) [])]).length = l.length := by
    simp [hlen]
  rw [if_neg (by rw [hlen2]; omega)]
  simp only
  have hfull : idxs.map (fun j => (j, l.getD (j - 1) [])) ++ [(i, l.getD (i - 1) [])]
      = (idxs ++ [i]).map (fun j => (j, l.getD (j - 1) [])) := by
    simp
  rw [hfull]
  unfold joinScanChunks
  rw [collect_of_mapGet _ l 1 (fun k hk => ?_), flatten_splitIntoChunks s n hn]
  have hink : 1 + k ∈ idxs ++ [i] := by
    refine hperm.mem_iff.mpr ?_
    rw [List.mem_range'_1]
    omega
  rw [mapGet_map_self _ _ _ hink]
  congr 1
  congr 1
  omega

/-! ### Claim theorems: fragment split and reassembly -/

/-- C6: joining `splitIntoChunks(s, n)` in order reproduces `s` for every
positive chunk size; and for every arrival order of the wrapped fragments
(1-based indices, fed through `handleScannedPayload`), the last fragment
completes reassembly with exactly `s`. -/
theorem c6_split_and_reassemble (s₁ : List Char) (n₁ : Nat) (s : List Char)
    (n : Nat) (idxs : List Nat) (i : Nat) (hn₁ : 0 < n₁) (hn : 0 < n)
    (hperm : (idxs ++ [i]).Perm (List.range' 1 (splitIntoChunks s n).length)) :
    (splitIntoChunks s₁ n₁).flatten = s₁
    ∧ (handleScannedPayload
         (feedScans resetScanChunks (idxs.map (fragmentRaw (splitIntoChunks s n))))
         (fragmentRaw (splitIntoChunks s n) i)).2
        = .complete s :=
  ⟨flatten_splitIntoChunks s₁ n₁ hn₁, scan_reassembly s n idxs i hn hperm⟩

/-- C6 witness: `"abcde"` split at size 2 into three fragments, scanned in
the order 2, 3, 1. -/
theorem c6_split_and_reassemble_witness :
    (splitIntoChunks ['x', 'y', 'z'] 2).flatten = ['x', 'y', 'z']
    ∧ (handleScannedPayload
         (feedScans resetScanChunks
           ([2, 3].map (fragmentRaw (splitIntoChunks ['a', 'b', 'c', 'd', 'e'] 2))))
         (fragmentRaw (splitIntoChunks ['a', 'b', 'c', 'd', 'e'] 2) 1)).2
        = .complete ['a', 'b', 'c', 'd', 'e'] :=
  c6_split_and_reassemble ['x', 'y', 'z'] 2 ['a', 'b', 'c', 'd', 'e'] 2 [2, 3] 1
    (by decide) (by decide) (by decide)

/-- C2 counterexample: scan fragment `KTN1:1/3:A`, then the conflicting
fragment `KTN1:2/2:B`.  The latest total (2) wins, but reassembly does not
restart: the fragment collected under the old total is still in the map,
and the scan completes immediately, joining `A` into the result. -/
theorem c2_counterexample :
    (handleScannedPayload
       (handleScannedPayload resetScanChunks (wrapChunk 1 3 ['A'])).1
       (wrapChunk 2 2 ['B'])).2 = .complete ['A', 'B']
    ∧ mapGet (handleScannedPayload
        (handleScannedPayload resetScanChunks (wrapChunk 1 3 ['A'])).1
        (wrapChunk 2 2 ['B'])).1.scanChunks 1 = some ['A']
    ∧ (handleScannedPayload
        (handleScannedPayload resetScanChunks (wrapChunk 1 3 ['A'])).1
        (wrapChunk 2 2 ['B'])).1.scanChunks ≠ [(2, ['B'])] := by
  refine ⟨?_, ?_, ?_⟩ <;> decide

/-- C2 amended: when a fragment's claimed total conflicts with the total
observed so far, the latest total wins (`scanChunkTotal` becomes the new
fragment's total), but the fragments collected under the old total are
retained, not discarded — the map is only extended with the new
fragment. -/
theorem c2_amended (st : ScanState) (i total : Nat) (p : List Char)
    (hp : p ≠ []) (hconflict : st.scanChunkTotal ≠ total) :
    (handleScannedPayload st (wrapChunk i total p)).1.scanChunkTotal = total
    ∧ (handleScannedPayload st (wrapChunk i total p)).1.scanChunks
        = mapSet st.scanChunks i p := by
  rw [handleScannedPayload_fst st _ _ (parseChunk_wrapChunk i total p hp)]
  exact ⟨rfl, rfl⟩

/-- C2 amended witness at concrete inputs. -/
theorem c2_amended_witness :
    (handleScannedPayload ⟨[(1, ['A'])], 3⟩ (wrapChunk 2 2 ['B'])).1.scanChunkTotal = 2
    ∧ (handleScannedPayload ⟨[(1, ['A'])], 3⟩ (wrapChunk 2 2 ['B'])).1.scanChunks
        = mapSet [(1, ['A'])] 2 ['B'] :=
  c2_amended ⟨[(1, ['A'])], 3⟩ 2 2 ['B'] (by decide) (by decide)

/-! ### ChunkedChannel: `sendMessage` chunking and the `setupDataChannel`
reassembly buffer (C7, C8) -/

/-- A frame pushed into `channel.send`: either one serialized message, or
one `__chunk__` envelope of a chunked message. -/
inductive Frame where
  | plain (data : List Char)
  | chunk (chunkId : String) (index total : Nat) (data : List Char)
deriving DecidableEq

/-- The 16 KiB chunking threshold of `sendMessage`. -/
def MAX_CHUNK_SIZE : Nat := 16384

/-- Models `Math.ceil(data.length / MAX_CHUNK_SIZE)`. -/
def chunkTotal (data : List Char) : Nat :=
  (data.length + (MAX_CHUNK_SIZE - 1)) / MAX_CHUNK_SIZE

/-- Models `data.slice(i * MAX_CHUNK_SIZE, (i + 1) * MAX_CHUNK_SIZE)`. -/
def chunkSlice (data : List Char) (i : Nat) : List Char :=
  (data.drop (i * MAX_CHUNK_SIZE)).take MAX_CHUNK_SIZE

/-- The `__chunk__` envelope for index `i` of a chunked message. -/
def chunkEnv (data : List Char) (chunkId : String) (i : Nat) : Frame :=
  .chunk chunkId i (chunkTotal data) (chunkSlice data i)

/-- Models `sendMessage(payload)` on an open channel, recorded as the frames
passed to `channel.send` in order: above 16384 characters the message is
split into `Math.ceil(size / 16384)` envelopes sharing the fresh `chunkId`,
sent sequentially; otherwise it is sent as a single frame.  (The
backpressure poll between chunk sends does not alter the frame sequence
while the channel stays open and is not modelled.) -/
def sendMessage (data : List Char) (chunkId : String) : List Frame :=
  if data.length > MAX_CHUNK_SIZE then
    (List.range (chunkTotal data)).map (chunkEnv data chunkId)
  else [.plain data]

/-- One reassembly buffer:
`{ chunks: new Array(total), received: 0, total }`. -/
structure ChunkBuffer where
  chunks : List (Option (List Char))
  received : Nat
  total : Nat
deriving DecidableEq

/-- The `chunkBuffers` map of `setupDataChannel`, keyed by `chunkId`. -/
abbrev BufferMap := List (String × ChunkBuffer)

def bufGet : BufferMap → String → Option ChunkBuffer
  | [], _ => none
  | (k, v) :: rest, i => if k = i then some v else bufGet rest i

def bufSet : BufferMap → String → ChunkBuffer → BufferMap
  | [], i, v => [(i, v)]
  | (k, w) :: rest, i, v => if k = i then (k, v) :: rest else (k, w) :: bufSet rest i v

def bufDel (m : BufferMap) (i : String) : BufferMap :=
  m.filter (fun p => p.1 ≠ i)

/-- The JS falsy test `!buffer.chunks[index]`: the slot is out of range
(`undefined`), unset, or holds the empty string. -/
def slotEmpty (chunks : List (Option (List Char))) (index : Nat) : Bool :=
  match chunks.getD index none with
  | none => true
  | some d => d.isEmpty

/-- Models `buffer.chunks.join` with the empty separator: holes render as the empty string. -/
def joinBuffer (chunks : List (Option (List Char))) : List Char :=
  (chunks.map (fun o => o.getD [])).flatten

/-- The `message` listener of `setupDataChannel`, restricted to frame
routing: a `__chunk__` envelope is stored in the buffer for its `chunkId`
(created on first sight with that envelope's `total`), skipping slots that
are already set; once `received` reaches `total`, the joined payload is
delivered and the buffer discarded; any other frame is delivered directly.
(`buffer.chunks[index] = data` on an index at or beyond `total` would grow
the JS array; the model drops such out-of-range writes, which no frame
produced by `sendMessage` performs.) -/
def receiveFrame (bufs : BufferMap) (f : Frame) : BufferMap × Option (List Char) :=
  match f with
  | .plain d => (bufs, some d)
  | .chunk cid index total data =>
    let bufs1 := match bufGet bufs cid with
      | some _ => bufs
      | none => bufSet bufs cid ⟨List.replicate total none, 0, total⟩
    let buffer := (bufGet bufs1 cid).getD ⟨[], 0, 0⟩
    let buffer1 := if slotEmpty buffer.chunks index then
        (⟨buffer.chunks.set index (some data), buffer.received + 1, buffer.total⟩ : ChunkBuffer)
      else buffer
    if buffer1.received = buffer1.total then
      (bufDel bufs1 cid, some (joinBuffer buffer1.chunks))
    else (bufSet bufs1 cid buffer1, none)

/-- Feeding a sequence of frames through the listener, collecting the
delivered payloads in order. -/
def feedFrames (bufs : BufferMap) (fs : List Frame) : BufferMap × List (List Char) :=
  fs.foldl (fun acc f =>
    let r := receiveFrame acc.1 f
    (r.1, acc.2 ++ r.2.toList)) (bufs, [])

/-- The buffer slots after the envelopes with indices `J` have arrived. -/
def fedChunks (data : List Char) (J : List Nat) : List (Option (List Char)) :=
  (List.range (chunkTotal data)).map
    (fun j => if j ∈ J then some (chunkSlice data j) else none)

/-- The buffer map after the envelopes with indices `J` (fewer than all)
have arrived. -/
def midBufs (data : List Char) (cid : String) (J : List Nat) : BufferMap :=
  if J = [] then []
  else [(cid, ⟨fedChunks data J, J.length, chunkTotal data⟩)]

/-! ### Chunk slice lemmas -/

theorem flatten_slices_aux (m : Nat) (hm : 0 < m) :
    ∀ (fuel : Nat) (data : List Char), data.length ≤ fuel →
      ((List.range ((data.length + (m - 1)) / m)).map
        (fun i => (data.drop (i * m)).take m)).flatten = data := by
  intro fuel
  induction fuel with
  | zero =>
    intro data h
    have : data = [] := List.eq_nil_of_length_eq_zero (by omega)
    subst this
    simp [Nat.div_eq_of_lt (show 0 + (m - 1) < m by omega)]
  | succ f ih =>
    intro data h
    by_cases hnil : data = []
    · subst hnil
      simp [Nat.div_eq_of_lt (show 0 + (m - 1) < m by omega)]
    · have hpos : 0 < data.length := List.length_pos.mpr hnil
      by_cases hle : data.length ≤ m
      · have hceil : (data.length + (m - 1)) / m = 1 := by
          apply Nat.div_eq_of_lt_le <;> omega
        rw [hceil, show List.range 1 = [0] from rfl]
        simp only [List.map_cons, List.map_nil, List.flatten_cons, List.flatten_nil,
          List.append_nil, Nat.zero_mul, List.drop_zero]
        exact List.take_of_length_le hle
      · push_neg at hle
        have hceil : (data.length + (m - 1)) / m
            = ((data.length - m + (m - 1)) / m) + 1 := by
          have hsplit : data.length + (m - 1) = (data.length - m + (m - 1)) + m := by
            omega
          rw [hsplit, Nat.add_div_right _ hm]
        rw [hceil, List.range_succ_eq_map]
        simp only [List.map_cons, List.flatten_cons, List.map_map, Nat.zero_mul,
          List.drop_zero]
        have htail : ((List.range ((data.length - m + (m - 1)) / m)).map
              ((fun i => (data.drop (i * m)).take m) ∘ Nat.succ)).flatten
            = data.drop m := by
          have hstep : ∀ i, ((fun i => (data.drop (i * m)).take m) ∘ Nat.succ) i
              = ((data.drop m).drop (i * m)).take m := by
            intro i
            simp only [Function.comp_apply, List.drop_drop]
            rw [Nat.succ_mul, Nat.add_comm]
          rw [List.map_congr_left (fun i _ => hstep i)]
          have hdl : data.length - m = (data.drop m).length := by
            simp [List.length_drop]
          rw [hdl]
          exact ih (data.drop m) (by simp [List.length_drop]; omega)
        rw [htail]
        exact List.take_append_drop _ _

theorem flatten_chunkSlices (data : List Char) :
    ((List.range (chunkTotal data)).map (chunkSlice data)).flatten = data := by
  have := flatten_slices_aux MAX_CHUNK_SIZE (by decide) data.length data le_rfl
  simpa [chunkTotal, chunkSlice] using this

theorem fedChunks_length (data : List Char) (J : List Nat) :
    (fedChunks data J).length = chunkTotal data := by
  simp [fedChunks]

theorem fedChunks_nil (data : List Char) :
    fedChunks data [] = List.replicate (chunkTotal data) none := by
  simp [fedChunks]

theorem fedChunks_getElem? (data : List Char) (J : List Nat) (k : Nat) :
    (fedChunks data J)[k]?
      = if k < chunkTotal data
        then some (if k ∈ J then some (chunkSlice data k) else none)
        else none := by
  by_cases hk : k < chunkTotal data
  · simp [fedChunks, List.getElem?_map, List.getElem?_range hk, hk]
  · rw [if_neg hk]
    rw [List.getElem?_eq_none (by simp [fedChunks]; omega)]

theorem fedChunks_set (data : List Char) (J : List Nat) (i : Nat)
    (hi : i < chunkTotal data) :
    (fedChunks data J).set i (some (chunkSlice data i)) = fedChunks data (J ++ [i]) := by
  apply List.ext_getElem?
  intro k
  by_cases hk : k = i
  · subst hk
    rw [List.getElem?_set_self (by rw [fedChunks_length]; exact hi)]
    rw [fedChunks_getElem?]
    simp [hi]
  · rw [List.getElem?_set_ne (fun hh => hk hh.symm)]
    rw [fedChunks_getElem?, fedChunks_getElem?]
    by_cases hklt : k < chunkTotal data <;> simp [hklt, List.mem_append, hk]

theorem slotEmpty_fedChunks (data : List Char) (J : List Nat) (i : Nat)
    (hi : i < chunkTotal data) (hfresh : i ∉ J) :
    slotEmpty (fedChunks data J) i = true := by
  unfold slotEmpty
  rw [List.getD_eq_getElem?_getD, fedChunks_getElem?]
  simp [hi, hfresh]

/-- Joining a fully fed buffer reproduces the original message. -/
theorem joinBuffer_full (data : List Char) (full : List Nat)
    (hperm : full.Perm (List.range (chunkTotal data))) :
    joinBuffer (fedChunks data full) = data := by
  unfold joinBuffer fedChunks
  rw [List.map_map]
  rw [List.map_congr_left (fun j hj => ?_), flatten_chunkSlices data]
  have hmem : j ∈ full := hperm.mem_iff.mpr hj
  simp [hmem]

/-- One arriving envelope with a fresh in-range index either completes the
buffer (delivering the join and discarding the buffer) or extends it. -/
theorem receiveFrame_step (data : List Char) (cid : String) (J : List Nat) (i : Nat)
    (hi : i < chunkTotal data) (hfresh : i ∉ J) :
    receiveFrame (midBufs data cid J) (chunkEnv data cid i)
      = if J.length + 1 = chunkTotal data
        then ([], some (joinBuffer (fedChunks data (J ++ [i]))))
        else (midBufs data cid (J ++ [i]), none) := by
  have hslot := slotEmpty_fedChunks data J i hi hfresh
  have hset := fedChunks_set data J i hi
  by_cases hJ : J = []
  · subst hJ
    simp only [midBufs, if_pos rfl, chunkEnv, receiveFrame, bufGet, bufSet]
    rw [← fedChunks_nil]
    by_cases hdone : ([] : List Nat).length + 1 = chunkTotal data
    · simp [hslot, hset, hdone, bufDel, List.filter, midBufs]
    · simp [hslot, hset, hdone, midBufs, bufSet]
      rw [if_neg (by simpa using hdone), if_neg (by simpa using hdone)]
  · simp only [midBufs, if_neg hJ, chunkEnv, receiveFrame, bufGet, if_pos rfl,
      Option.getD_some]
    by_cases hdone : J.length + 1 = chunkTotal data
    · simp [hslot, hset, hdone, bufDel, List.filter, hJ, midBufs]
    · simp [hslot, hset, hdone, midBufs, bufSet, hJ]

theorem feedFrames_shift (fs : List Frame) (bufs : BufferMap) (acc : List (List Char)) :
    fs.foldl (fun a f =>
        let r := receiveFrame a.1 f
        (r.1, a.2 ++ r.2.toList)) (bufs, acc)
      = ((feedFrames bufs fs).1, acc ++ (feedFrames bufs fs).2) := by
  induction fs generalizing bufs acc with
  | nil => simp [feedFrames]
  | cons f rest ih =>
    simp only [feedFrames, List.foldl_cons]
    rw [ih, ih ((receiveFrame bufs f).1)]
    simp

theorem feedFrames_cons (bufs : BufferMap) (f : Frame) (fs : List Frame) :
    feedFrames bufs (f :: fs)
      = ((feedFrames (receiveFrame bufs f).1 fs).1,
         (receiveFrame bufs f).2.toList ++ (feedFrames (receiveFrame bufs f).1 fs).2) := by
  simp only [feedFrames, List.foldl_cons]
  rw [feedFrames_shift]
  simp [feedFrames]

theorem feedFrames_append (bufs : BufferMap) (l₁ l₂ : List Frame) :
    feedFrames bufs (l₁ ++ l₂)
      = ((feedFrames (feedFrames bufs l₁).1 l₂).1,
         (feedFrames bufs l₁).2 ++ (feedFrames (feedFrames bufs l₁).1 l₂).2) := by
  induction l₁ generalizing bufs with
  | nil => simp [feedFrames]
  | cons f rest ih =>
    simp only [List.cons_append, feedFrames_cons, ih]
    simp [List.append_assoc]

/-- Feeding fewer envelopes than the total delivers nothing and leaves the
partially filled buffer. -/
theorem feedFrames_partial (data : List Char) (cid : String) :
    ∀ (idxs J : List Nat),
      (J ++ idxs).Nodup → (∀ j ∈ J ++ idxs, j < chunkTotal data) →
      (J ++ idxs).length < chunkTotal data →
      feedFrames (midBufs data cid J) (idxs.map (chunkEnv data cid))
        = (midBufs data cid (J ++ idxs), []) := by
  intro idxs
  induction idxs with
  | nil => intro J _ _ _; simp [feedFrames]
  | cons i rest ih =>
    intro J hnodup hbound hlen
    have hifresh : i ∉ J := by
      intro hcon
      exact (List.nodup_append.mp hnodup).2.2 hcon (by simp)
    have hstep := receiveFrame_step data cid J i (hbound i (by simp)) hifresh
    rw [if_neg (by simp at hlen ⊢; omega)] at hstep
    simp only [List.map_cons, feedFrames_cons, hstep]
    have hrest := ih (J ++ [i])
      (by simpa [List.append_assoc] using hnodup)
      (by intro j hj; exact hbound j (by simpa [List.append_assoc] using hj))
      (by simp at hlen ⊢; omega)
    rw [hrest]
    simp [List.append_assoc]

/-- Feeding the chunk envelopes of a large message in index order delivers
exactly the original message and discards the buffer. -/
theorem feedFrames_all (data : List Char) (cid : String)
    (hpos : 0 < chunkTotal data) :
    feedFrames [] ((List.range (chunkTotal data)).map (chunkEnv data cid))
      = ([], [data]) := by
  obtain ⟨t, ht⟩ : ∃ t, chunkTotal data = t + 1 := ⟨chunkTotal data - 1, by omega⟩
  rw [ht, List.range_succ, List.map_append]
  rw [feedFrames_append]
  have hpart := feedFrames_partial data cid (List.range t) []
    (by simpa using List.nodup_range t)
    (by intro j hj; simp at hj; omega)
    (by simp; omega)
  rw [show midBufs data cid [] = [] from rfl] at hpart
  rw [hpart]
  have hstep := receiveFrame_step data cid (List.range t) t (by omega)
    (by simp)
  rw [if_pos (by simp [ht])] at hstep
  have hjoin : joinBuffer (fedChunks data (List.range t ++ [t])) = data := by
    apply joinBuffer_full
    rw [ht, List.range_succ]
  simp only [List.map_cons, List.map_nil, feedFrames_cons, List.nil_append, hstep,
    hjoin]
  simp [feedFrames]

/-- The payload carried by a frame. -/
def frameData : Frame → List Char
  | .plain d => d
  | .chunk _ _ _ d => d

/-! ### Claim theorems: chunked channel -/

/-- C7: for a chunked message (serialized size above 16 KiB), feeding its
`__chunk__` envelopes in any arrival order delivers nothing while any
envelope is still missing; the arrival of the last envelope delivers
exactly the original serialized message and discards the reassembly buffer
for its `chunkId`. -/
theorem c7_chunk_reassembly (data : List Char) (cid : String) (idxs : List Nat)
    (i : Nat) (hlarge : MAX_CHUNK_SIZE < data.length)
    (hperm : (idxs ++ [i]).Perm (List.range (chunkTotal data))) :
    sendMessage data cid = (List.range (chunkTotal data)).map (chunkEnv data cid)
    ∧ (feedFrames [] (idxs.map (chunkEnv data cid))).2 = []
    ∧ receiveFrame (feedFrames [] (idxs.map (chunkEnv data cid))).1
        (chunkEnv data cid i)
      = ([], some data) := by
  have hnodup : (idxs ++ [i]).Nodup := hperm.symm.nodup (List.nodup_range _)
  have hbound : ∀ j ∈ idxs ++ [i], j < chunkTotal data := by
    intro j hj
    have := hperm.mem_iff.mp hj
    simpa using this
  have hlen : idxs.length + 1 = chunkTotal data := by
    have := hperm.length_eq
    simpa using this
  have hpart := feedFrames_partial data cid idxs []
    (by simpa using (List.nodup_append.mp hnodup).1)
    (by intro j hj; simp at hj; exact hbound j (by simp [hj]))
    (by simp; omega)
  rw [show midBufs data cid [] = [] from rfl, List.nil_append] at hpart
  have hifresh : i ∉ idxs := by
    intro hcon
    exact (List.nodup_append.mp hnodup).2.2 hcon (by simp)
  refine ⟨by rw [sendMessage, if_pos hlarge], by rw [hpart], ?_⟩
  rw [hpart]
  have hstep := receiveFrame_step data cid idxs i (hbound i (by simp)) hifresh
  rw [if_pos hlen] at hstep
  rw [hstep, joinBuffer_full data (idxs ++ [i]) hperm]

/-- C7 witness: a 16385-character message split into two envelopes, the
second envelope arriving first. -/
theorem c7_chunk_reassembly_witness :
    sendMessage (List.replicate 16385 'a') "c"
      = (List.range (chunkTotal (List.replicate 16385 'a'))).map
          (chunkEnv (List.replicate 16385 'a') "c")
    ∧ (feedFrames [] ([1].map (chunkEnv (List.replicate 16385 'a') "c"))).2 = []
    ∧ receiveFrame (feedFrames [] ([1].map (chunkEnv (List.replicate 16385 'a') "c"))).1
        (chunkEnv (List.replicate 16385 'a') "c" 0)
      = ([], some (List.replicate 16385 'a')) := by
  have hct : chunkTotal (List.replicate 16385 'a') = 2 := by
    rw [chunkTotal, List.length_replicate]
    decide
  exact c7_chunk_reassembly (List.replicate 16385 'a') "c" [1] 0
    (by rw [List.length_replicate]; decide)
    (by rw [hct]; decide)

/-- C8: a message of at most 16384 characters is sent as one frame; a
larger one as exactly `⌈size/16384⌉` chunk envelopes that all carry the
same fresh `chunkId` and jointly carry the message; and a 40 KiB (40960
character) message is sent as three chunks of sizes 16384, 16384 and 8192
which the receiver reassembles into the original message. -/
theorem c8_send_chunking (d₁ d₂ d₃ : List Char) (cid : String)
    (h₁ : d₁.length ≤ MAX_CHUNK_SIZE) (h₂ : MAX_CHUNK_SIZE < d₂.length)
    (h₃ : d₃.length = 40960) :
    sendMessage d₁ cid = [.plain d₁]
    ∧ (sendMessage d₂ cid).length = (d₂.length + (MAX_CHUNK_SIZE - 1)) / MAX_CHUNK_SIZE
    ∧ (∀ f ∈ sendMessage d₂ cid, ∃ i,
        f = .chunk cid i (chunkTotal d₂) (chunkSlice d₂ i))
    ∧ ((sendMessage d₂ cid).map frameData).flatten = d₂
    ∧ (sendMessage d₃ cid).map (fun f => (frameData f).length) = [16384, 16384, 8192]
    ∧ feedFrames [] (sendMessage d₃ cid) = ([], [d₃]) := by
  have hct3 : chunkTotal d₃ = 3 := by
    rw [chunkTotal, h₃]
    decide
  have h₃large : MAX_CHUNK_SIZE < d₃.length := by
    rw [h₃]
    decide
  refine ⟨?_, ?_, ?_, ?_, ?_, ?_⟩
  · rw [sendMessage, if_neg (by omega)]
  · rw [sendMessage, if_pos h₂]
    simp [chunkTotal]
  · intro f hf
    rw [sendMessage, if_pos h₂] at hf
    obtain ⟨j, _, rfl⟩ := List.mem_map.mp hf
    exact ⟨j, rfl⟩
  · rw [sendMessage, if_pos h₂, List.map_map]
    rw [List.map_congr_left (fun j _ => show (frameData ∘ chunkEnv d₂ cid) j
      = chunkSlice d₂ j from rfl)]
    exact flatten_chunkSlices d₂
  · rw [sendMessage, if_pos h₃large, hct3,
      show List.range 3 = [0, 1, 2] from rfl]
    simp only [List.map_cons, List.map_nil, chunkEnv, frameData, chunkSlice,
      List.length_take, List.length_drop, h₃, MAX_CHUNK_SIZE]
    norm_num
  · rw [sendMessage, if_pos h₃large]
    exact feedFrames_all d₃ cid (by rw [hct3]; decide)

/-- C8 witness: concrete messages of 1, 16390 and 40960 characters. -/
theorem c8_send_chunking_witness :
    sendMessage ['x'] "c" = [.plain ['x']]
    ∧ (sendMessage (List.replicate 16390 'b') "c").length
        = ((List.replicate 16390 'b').length + (MAX_CHUNK_SIZE - 1)) / MAX_CHUNK_SIZE
    ∧ ((sendMessage (List.replicate 16390 'b') "c").map frameData).flatten
        = List.replicate 16390 'b'
    ∧ (sendMessage (List.replicate 40960 'c') "c").map (fun f => (frameData f).length)
        = [16384, 16384, 8192]
    ∧ feedFrames [] (sendMessage (List.replicate 40960 'c') "c")
        = ([], [List.replicate 40960 'c']) := by
  have h := c8_send_chunking ['x'] (List.replicate 16390 'b')
    (List.replicate 40960 'c') "c"
    (by decide)
    (by rw [List.length_replicate]; decide)
    (by rw [List.length_replicate])
  exact ⟨h.1, h.2.1, h.2.2.2.1, h.2.2.2.2.1, h.2.2.2.2.2⟩

/-! ### SignalingCodec: `compactSignaling` / `expandSignaling` (C5, C9)

JSON values as the codec manipulates them.  Objects are insertion-ordered
key-value lists, as JS objects are; property assignment overwrites an
existing key in place or appends a new one, `delete` removes the key. -/

inductive JVal where
  | str (s : String)
  | num (n : Int)
  | bool (b : Bool)
  | null
  | arr (items : List JVal)
  | obj (fields : List (String × JVal))

abbrev JObj := List (String × JVal)

def getKey : JObj → String → Option JVal
  | [], _ => none
  | (k, v) :: rest, key => if k = key then some v else getKey rest key

def setKey : JObj → String → JVal → JObj
  | [], key, v => [(key, v)]
  | (k, w) :: rest, key, v =>
    if k = key then (k, v) :: rest else (k, w) :: setKey rest key v

def delKey : JObj → String → JObj
  | [], _ => []
  | (k, v) :: rest, key =>
    if k = key then delKey rest key else (k, v) :: delKey rest key

/-- JS truthiness of a JSON value (`""`, `0`, `false` and `null` are falsy;
arrays and objects are truthy). -/
def truthy : JVal → Bool
  | .str s => s != ""
  | .num n => n != 0
  | .bool b => b
  | .null => false
  | .arr _ => true
  | .obj _ => true

/-- Models `if (o[src]) { o[dst] = f(o[src]); delete o[src]; }`. -/
def renameTruthyWith (o : JObj) (src dst : String) (f : JVal → JVal) : JObj :=
  match getKey o src with
  | some v => if truthy v then delKey (setKey o dst (f v)) src else o
  | none => o

/-- Models `if (o[src]) { o[dst] = o[src]; delete o[src]; }`. -/
def renameTruthy (o : JObj) (src dst : String) : JObj :=
  renameTruthyWith o src dst id

/-- Models `if (o[src] !== undefined) { o[dst] = o[src]; delete o[src]; }`. -/
def renamePresent (o : JObj) (src dst : String) : JObj :=
  match getKey o src with
  | some v => delKey (setKey o dst v) src
  | none => o

/-- The non-root object renames of `compactSignaling(data, false)`:
`candidate→c` and `sdpMid→m` when truthy, `sdpMLineIndex→i` when present
(`!== undefined`); values are not recursed into. -/
def compactObjNR (o : JObj) : JObj :=
  renamePresent (renameTruthy (renameTruthy o "candidate" "c") "sdpMid" "m")
    "sdpMLineIndex" "i"

/-- The non-root object renames of `expandSignaling(data, false)`. -/
def expandObjNR (o : JObj) : JObj :=
  renamePresent (renameTruthy (renameTruthy o "c" "candidate") "m" "sdpMid")
    "i" "sdpMLineIndex"

mutual
/-- Models `compactSignaling(data, false)`: recurse through arrays, rename
candidate-level keys on objects, return primitives (and `null`)
unchanged. -/
def compactNonRoot : JVal → JVal
  | .arr items => .arr (compactNonRootList items)
  | .obj o => .obj (compactObjNR o)
  | .str s => .str s
  | .num n => .num n
  | .bool b => .bool b
  | .null => .null

def compactNonRootList : List JVal → List JVal
  | [] => []
  | x :: xs => compactNonRoot x :: compactNonRootList xs
end

mutual
/-- Models `expandSignaling(data, false)`. -/
def expandNonRoot : JVal → JVal
  | .arr items => .arr (expandNonRootList items)
  | .obj o => .obj (expandObjNR o)
  | .str s => .str s
  | .num n => .num n
  | .bool b => .bool b
  | .null => .null

def expandNonRootList : List JVal → List JVal
  | [] => []
  | x :: xs => expandNonRoot x :: expandNonRootList xs
end

/-- The root object renames of `compactSignaling(data, true)`: `type→t`
and `sdp→s` when truthy; `candidates→c` when truthy, compacting the moved
value with the non-root rules. -/
def compactObjRoot (o : JObj) : JObj :=
  renameTruthyWith (renameTruthy (renameTruthy o "type" "t") "sdp" "s")
    "candidates" "c" compactNonRoot

/-- The root object renames of `expandSignaling(data, true)`. -/
def expandObjRoot (o : JObj) : JObj :=
  renameTruthyWith (renameTruthy (renameTruthy o "t" "type") "s" "sdp")
    "c" "candidates" expandNonRoot

/-- Models `compactSignaling(data, true)`: the root entry point (a root array
recurses with `isRoot = false`, exactly as the source maps over it). -/
def compactSignaling : JVal → JVal
  | .arr items => .arr (compactNonRootList items)
  | .obj o => .obj (compactObjRoot o)
  | .str s => .str s
  | .num n => .num n
  | .bool b => .bool b
  | .null => .null

/-- Models `expandSignaling(data, true)`. -/
def expandSignaling : JVal → JVal
  | .arr items => .arr (expandNonRootList items)
  | .obj o => .obj (expandObjRoot o)
  | .str s => .str s
  | .num n => .num n
  | .bool b => .bool b
  | .null => .null

def candKeys : List String := ["candidate", "sdpMid", "sdpMLineIndex"]

def rootKeys : List String := ["type", "sdp", "candidates"]

/-- All keys either codec function may touch at candidate level. -/
def candAllKeys : List String := ["candidate", "sdpMid", "sdpMLineIndex", "c", "m", "i"]

/-- All keys either codec function may touch at root level. -/
def rootAllKeys : List String := ["type", "sdp", "candidates", "t", "s", "c"]

def keysOf (o : JObj) : List String := o.map (·.1)

def catPairs : List (String × Option JVal) → JObj
  | [] => []
  | (k, some v) :: rest => (k, v) :: catPairs rest
  | (_, none) :: rest => catPairs rest

mutual
/-- Canonical form of a value under the candidate-level key universe:
objects are reordered to the fixed key order (values untouched, since the
codec never rewrites candidate-level values), arrays normalize
elementwise.  Two values are deep-equal up to field order iff their
canonical forms are equal, for values whose object keys stay inside
`candAllKeys`. -/
def normCand : JVal → JVal
  | .arr items => .arr (normCandList items)
  | .obj o => .obj (catPairs [("candidate", getKey o "candidate"),
      ("sdpMid", getKey o "sdpMid"), ("sdpMLineIndex", getKey o "sdpMLineIndex"),
      ("c", getKey o "c"), ("m", getKey o "m"), ("i", getKey o "i")])
  | .str s => .str s
  | .num n => .num n
  | .bool b => .bool b
  | .null => .null

def normCandList : List JVal → List JVal
  | [] => []
  | x :: xs => normCand x :: normCandList xs
end

/-- Canonical form of a root signaling payload (the `candidates` / `c`
values are normalized at candidate level). -/
def normSignaling : JVal → JVal
  | .arr items => .arr (normCandList items)
  | .obj o => .obj (catPairs [("type", getKey o "type"), ("sdp", getKey o "sdp"),
      ("candidates", (getKey o "candidates").map normCand),
      ("t", getKey o "t"), ("s", getKey o "s"),
      ("c", (getKey o "c").map normCand)])
  | .str s => .str s
  | .num n => .num n
  | .bool b => .bool b
  | .null => .null

mutual
/-- A well-formed candidates value: primitives, candidate objects whose
keys lie in `candidate`/`sdpMid`/`sdpMLineIndex`, and arrays of such,
recursively. -/
def wfCand : JVal → Bool
  | .arr items => wfCandList items
  | .obj o => (keysOf o).all (fun k => candKeys.contains k)
  | _ => true

def wfCandList : List JVal → Bool
  | [] => true
  | x :: xs => wfCand x && wfCandList xs
end

/-- A well-formed signaling payload: an object whose top-level keys lie in
`type`/`sdp`/`candidates`, with a well-formed candidates value when
present. -/
def wellFormed : JVal → Bool
  | .obj o => (keysOf o).all (fun k => rootKeys.contains k)
      && (match getKey o "candidates" with
          | some v => wfCand v
          | none => true)
  | _ => false

/-! ### Key lookup lemmas -/

theorem getKey_setKey (o : JObj) (key : String) (v : JVal) (q : String) :
    getKey (setKey o key v) q = if key = q then some v else getKey o q := by
  induction o with
  | nil =>
    by_cases h : key = q
    · simp [setKey, getKey, h]
    · have h' : ¬ key = q := h
      simp [setKey, getKey, h, h']
  | cons p rest ih =>
    rcases p with ⟨a, w⟩
    simp only [setKey]
    by_cases h1 : a = key
    · rw [if_pos h1]
      by_cases h2 : a = q
      · have hkq : key = q := by rw [← h1, h2]
        simp [getKey, h2, hkq]
      · have hkq : ¬ key = q := by rw [← h1]; exact h2
        simp [getKey, h2, hkq]
    · rw [if_neg h1]
      by_cases h2 : a = q
      · have hkq : ¬ key = q := fun hh => h1 (by rw [hh, h2])
        simp [getKey, h2, hkq]
      · simp [getKey, h2, ih]

theorem getKey_delKey (o : JObj) (key : String) (q : String) :
    getKey (delKey o key) q = if key = q then none else getKey o q := by
  induction o with
  | nil => by_cases h : key = q <;> simp [delKey, getKey, h]
  | cons p rest ih =>
    rcases p with ⟨a, w⟩
    simp only [delKey]
    by_cases h1 : a = key
    · rw [if_pos h1]
      by_cases hkq : key = q
      · rw [ih, if_pos hkq, if_pos hkq]
      · rw [ih, if_neg hkq, if_neg hkq]
        have h2 : ¬ a = q := by rw [h1]; exact hkq
        simp [getKey, h2]
    · rw [if_neg h1]
      by_cases h2 : a = q
      · have hkq : ¬ key = q := fun hh => h1 (by rw [hh, h2])
        simp [getKey, h2, hkq]
      · simp [getKey, h2, ih]

/-! ### Rename characterization -/

theorem getKey_renameTruthyWith_other (o : JObj) (src dst : String)
    (f : JVal → JVal) (q : String) (h1 : ¬ src = q) (h2 : ¬ dst = q) :
    getKey (renameTruthyWith o src dst f) q = getKey o q := by
  unfold renameTruthyWith
  cases hv : getKey o src with
  | none => rfl
  | some v =>
    cases ht : truthy v
    · simp [ht]
    · simp only [ht, if_true]
      rw [getKey_delKey, if_neg h1, getKey_setKey, if_neg h2]

theorem getKey_renameTruthyWith_src (o : JObj) (src dst : String)
    (f : JVal → JVal) (hne : ¬ src = dst) :
    getKey (renameTruthyWith o src dst f) src
      = match getKey o src with
        | some v => if truthy v then none else some v
        | none => none := by
  unfold renameTruthyWith
  cases hv : getKey o src with
  | none => exact hv
  | some v =>
    cases ht : truthy v
    · simp [ht, hv]
    · simp only [ht, if_true]
      rw [getKey_delKey, if_pos rfl]

theorem getKey_renameTruthyWith_dst (o : JObj) (src dst : String)
    (f : JVal → JVal) (hne : ¬ src = dst) :
    getKey (renameTruthyWith o src dst f) dst
      = match getKey o src with
        | some v => if truthy v then some (f v) else getKey o dst
        | none => getKey o dst := by
  unfold renameTruthyWith
  cases hv : getKey o src with
  | none => rfl
  | some v =>
    cases ht : truthy v
    · simp [ht]
    · simp only [ht, if_true]
      rw [getKey_delKey, if_neg hne, getKey_setKey, if_pos rfl]

theorem getKey_renamePresent_other (o : JObj) (src dst : String) (q : String)
    (h1 : ¬ src = q) (h2 : ¬ dst = q) :
    getKey (renamePresent o src dst) q = getKey o q := by
  unfold renamePresent
  cases hv : getKey o src with
  | none => rfl
  | some v => rw [getKey_delKey, if_neg h1, getKey_setKey, if_neg h2]

theorem getKey_renamePresent_src (o : JObj) (src dst : String)
    (hne : ¬ src = dst) :
    getKey (renamePresent o src dst) src = none := by
  unfold renamePresent
  cases hv : getKey o src with
  | none => exact hv
  | some v => rw [getKey_delKey, if_pos rfl]

theorem getKey_renamePresent_dst (o : JObj) (src dst : String)
    (hne : ¬ src = dst) :
    getKey (renamePresent o src dst) dst
      = match getKey o src with
        | some v => some v
        | none => getKey o dst := by
  unfold renamePresent
  cases hv : getKey o src with
  | none => rfl
  | some v => rw [getKey_delKey, if_neg hne, getKey_setKey, if_pos rfl]

theorem getKey_eq_none_of_keys (allowed : List String) (k : String)
    (hk : allowed.contains k = false) :
    ∀ o : JObj, (keysOf o).all (fun q => allowed.contains q) = true →
      getKey o k = none := by
  intro o
  induction o with
  | nil => intro _; rfl
  | cons p rest ih =>
    intro hsub
    rcases p with ⟨a, w⟩
    simp only [keysOf, List.map_cons, List.all_cons, Bool.and_eq_true] at hsub
    by_cases h : a = k
    · rw [← h] at hk
      rw [hsub.1] at hk
      cases hk
    · simp only [getKey, h, if_neg, ite_false]
      exact ih hsub.2

theorem truthy_compactNonRoot (v : JVal) : truthy (compactNonRoot v) = truthy v := by
  cases v <;> rfl

theorem truthy_expandNonRoot (v : JVal) : truthy (expandNonRoot v) = truthy v := by
  cases v <;> rfl

/-- Candidate-level roundtrip at the lookup level: on an object without the
short keys, expanding a compacted object restores every lookup. -/
theorem expandObjNR_compactObjNR_lookups (o : JObj)
    (hc : getKey o "c" = none) (hm : getKey o "m" = none)
    (hi : getKey o "i" = none) :
    getKey (expandObjNR (compactObjNR o)) "candidate" = getKey o "candidate"
    ∧ getKey (expandObjNR (compactObjNR o)) "sdpMid" = getKey o "sdpMid"
    ∧ getKey (expandObjNR (compactObjNR o)) "sdpMLineIndex" = getKey o "sdpMLineIndex"
    ∧ getKey (expandObjNR (compactObjNR o)) "c" = none
    ∧ getKey (expandObjNR (compactObjNR o)) "m" = none
    ∧ getKey (expandObjNR (compactObjNR o)) "i" = none := by
  unfold expandObjNR compactObjNR
  simp only [renameTruthy]
  have hCc : getKey (renamePresent (renameTruthyWith (renameTruthyWith o
        "candidate" "c" id) "sdpMid" "m" id) "sdpMLineIndex" "i") "c"
      = match getKey o "candidate" with
        | some v => if truthy v then some (id v) else getKey o "c"
        | none => getKey o "c" := by
    rw [getKey_renamePresent_other _ "sdpMLineIndex" "i" "c" (by decide) (by decide),
      getKey_renameTruthyWith_other _ "sdpMid" "m" id "c" (by decide) (by decide),
      getKey_renameTruthyWith_dst _ "candidate" "c" id (by decide)]
  have hCcand : getKey (renamePresent (renameTruthyWith (renameTruthyWith o
        "candidate" "c" id) "sdpMid" "m" id) "sdpMLineIndex" "i") "candidate"
      = match getKey o "candidate" with
        | some v => if truthy v then none else some v
        | none => none := by
    rw [getKey_renamePresent_other _ "sdpMLineIndex" "i" "candidate" (by decide) (by decide),
      getKey_renameTruthyWith_other _ "sdpMid" "m" id "candidate" (by decide) (by decide),
      getKey_renameTruthyWith_src _ "candidate" "c" id (by decide)]
  have hCm : getKey (renamePresent (renameTruthyWith (renameTruthyWith o
        "candidate" "c" id) "sdpMid" "m" id) "sdpMLineIndex" "i") "m"
      = match getKey o "sdpMid" with
        | some v => if truthy v then some (id v) else getKey o "m"
        | none => getKey o "m" := by
    rw [getKey_renamePresent_other _ "sdpMLineIndex" "i" "m" (by decide) (by decide),
      getKey_renameTruthyWith_dst _ "sdpMid" "m" id (by decide),
      getKey_renameTruthyWith_other _ "candidate" "c" id "sdpMid" (by decide) (by decide),
      getKey_renameTruthyWith_other _ "candidate" "c" id "m" (by decide) (by decide)]
  have hCsm : getKey (renamePresent (renameTruthyWith (renameTruthyWith o
        "candidate" "c" id) "sdpMid" "m" id) "sdpMLineIndex" "i") "sdpMid"
      = match getKey o "sdpMid" with
        | some v => if truthy v then none else some v
        | none => none := by
    rw [getKey_renamePresent_other _ "sdpMLineIndex" "i" "sdpMid" (by decide) (by decide),
      getKey_renameTruthyWith_src _ "sdpMid" "m" id (by decide),
      getKey_renameTruthyWith_other _ "candidate" "c" id "sdpMid" (by decide) (by decide)]
  have hCi : getKey (renamePresent (renameTruthyWith (renameTruthyWith o
        "candidate" "c" id) "sdpMid" "m" id) "sdpMLineIndex" "i") "i"
      = match getKey o "sdpMLineIndex" with
        | some v => some v
        | none => getKey o "i" := by
    rw [getKey_renamePresent_dst _ "sdpMLineIndex" "i" (by decide),
      getKey_renameTruthyWith_other _ "sdpMid" "m" id "sdpMLineIndex" (by decide) (by decide),
      getKey_renameTruthyWith_other _ "candidate" "c" id "sdpMLineIndex" (by decide) (by decide),
      getKey_renameTruthyWith_other _ "sdpMid" "m" id "i" (by decide) (by decide),
      getKey_renameTruthyWith_other _ "candidate" "c" id "i" (by decide) (by decide)]
  have hCsl : getKey (renamePresent (renameTruthyWith (renameTruthyWith o
        "candidate" "c" id) "sdpMid" "m" id) "sdpMLineIndex" "i") "sdpMLineIndex"
      = none := by
    rw [getKey_renamePresent_src _ "sdpMLineIndex" "i" (by decide)]
  refine ⟨?_, ?_, ?_, ?_, ?_, ?_⟩
  · rw [getKey_renamePresent_other _ "i" "sdpMLineIndex" "candidate" (by decide) (by decide),
      getKey_renameTruthyWith_other _ "m" "sdpMid" id "candidate" (by decide) (by decide),
      getKey_renameTruthyWith_dst _ "c" "candidate" id (by decide), hCc, hCcand]
    rcases hv : getKey o "candidate" with _ | v
    · simp [hc]
    · cases ht : truthy v
      · simp [ht, hc]
      · simp [ht]
  · rw [getKey_renamePresent_other _ "i" "sdpMLineIndex" "sdpMid" (by decide) (by decide),
      getKey_renameTruthyWith_dst _ "m" "sdpMid" id (by decide),
      getKey_renameTruthyWith_other _ "c" "candidate" id "m" (by decide) (by decide),
      getKey_renameTruthyWith_other _ "c" "candidate" id "sdpMid" (by decide) (by decide),
      hCm, hCsm]
    rcases hv : getKey o "sdpMid" with _ | v
    · simp [hm]
    · cases ht : truthy v
      · simp [ht, hm]
      · simp [ht]
  · rw [getKey_renamePresent_dst _ "i" "sdpMLineIndex" (by decide),
      getKey_renameTruthyWith_other _ "m" "sdpMid" id "i" (by decide) (by decide),
      getKey_renameTruthyWith_other _ "c" "candidate" id "i" (by decide) (by decide),
      getKey_renameTruthyWith_other _ "m" "sdpMid" id "sdpMLineIndex" (by decide) (by decide),
      getKey_renameTruthyWith_other _ "c" "candidate" id "sdpMLineIndex" (by decide) (by decide),
      hCi, hCsl]
    rcases hv : getKey o "sdpMLineIndex" with _ | v
    · simp [hi]
    · simp
  · rw [getKey_renamePresent_other _ "i" "sdpMLineIndex" "c" (by decide) (by decide),
      getKey_renameTruthyWith_other _ "m" "sdpMid" id "c" (by decide) (by decide),
      getKey_renameTruthyWith_src _ "c" "candidate" id (by decide), hCc]
    rcases hv : getKey o "candidate" with _ | v
    · simp [hc]
    · cases ht : truthy v
      · simp [ht, hc]
      · simp [ht]
  · rw [getKey_renamePresent_other _ "i" "sdpMLineIndex" "m" (by decide) (by decide),
      getKey_renameTruthyWith_src _ "m" "sdpMid" id (by decide),
      getKey_renameTruthyWith_other _ "c" "candidate" id "m" (by decide) (by decide),
      hCm]
    rcases hv : getKey o "sdpMid" with _ | v
    · simp [hm]
    · cases ht : truthy v
      · simp [ht, hm]
      · simp [ht]
  · rw [getKey_renamePresent_src _ "i" "sdpMLineIndex" (by decide)]

theorem normCand_obj_roundtrip (o : JObj) (hwf : wfCand (.obj o) = true) :
    normCand (expandNonRoot (compactNonRoot (.obj o))) = normCand (.obj o) := by
  have hsub : (keysOf o).all (fun k => candKeys.contains k) = true := by
    simpa [wfCand] using hwf
  have hc : getKey o "c" = none :=
    getKey_eq_none_of_keys candKeys "c" (by decide) o hsub
  have hm : getKey o "m" = none :=
    getKey_eq_none_of_keys candKeys "m" (by decide) o hsub
  have hi : getKey o "i" = none :=
    getKey_eq_none_of_keys candKeys "i" (by decide) o hsub
  obtain ⟨l1, l2, l3, l4, l5, l6⟩ := expandObjNR_compactObjNR_lookups o hc hm hi
  show normCand (.obj (expandObjNR (compactObjNR o))) = normCand (.obj o)
  simp only [normCand]
  rw [l1, l2, l3, l4, l5, l6, hc, hm, hi]

mutual
theorem normCand_roundtrip (v : JVal) (hwf : wfCand v = true) :
    normCand (expandNonRoot (compactNonRoot v)) = normCand v := by
  cases v with
  | arr items =>
    simp only [compactNonRoot, expandNonRoot, normCand]
    rw [normCandList_roundtrip items (by simpa [wfCand] using hwf)]
  | obj o => exact normCand_obj_roundtrip o hwf
  | str s => rfl
  | num n => rfl
  | bool b => rfl
  | null => rfl

theorem normCandList_roundtrip (l : List JVal) (hwf : wfCandList l = true) :
    normCandList (expandNonRootList (compactNonRootList l)) = normCandList l := by
  cases l with
  | nil => rfl
  | cons x xs =>
    simp only [wfCandList, Bool.and_eq_true] at hwf
    simp only [compactNonRootList, expandNonRootList, normCandList]
    rw [normCand_roundtrip x hwf.1, normCandList_roundtrip xs hwf.2]
end

/-- Root-level roundtrip at the lookup level: on an object without the
short keys, expanding a compacted root payload restores the `type` and
`sdp` lookups exactly and the `candidates` lookup up to the non-root
roundtrip of its value. -/
theorem expandObjRoot_compactObjRoot_lookups (o : JObj)
    (ht : getKey o "t" = none) (hs : getKey o "s" = none)
    (hc : getKey o "c" = none) :
    getKey (expandObjRoot (compactObjRoot o)) "type" = getKey o "type"
    ∧ getKey (expandObjRoot (compactObjRoot o)) "sdp" = getKey o "sdp"
    ∧ getKey (expandObjRoot (compactObjRoot o)) "candidates"
        = (match getKey o "candidates" with
           | some v => if truthy v then some (expandNonRoot (compactNonRoot v))
                       else some v
           | none => none)
    ∧ getKey (expandObjRoot (compactObjRoot o)) "t" = none
    ∧ getKey (expandObjRoot (compactObjRoot o)) "s" = none
    ∧ getKey (expandObjRoot (compactObjRoot o)) "c" = none := by
  unfold expandObjRoot compactObjRoot
  simp only [renameTruthy]
  have hCt : getKey (renameTruthyWith (renameTruthyWith (renameTruthyWith o
        "type" "t" id) "sdp" "s" id) "candidates" "c" compactNonRoot) "t"
      = match getKey o "type" with
        | some v => if truthy v then some (id v) else getKey o "t"
        | none => getKey o "t" := by
    rw [getKey_renameTruthyWith_other _ "candidates" "c" compactNonRoot "t" (by decide) (by decide),
      getKey_renameTruthyWith_other _ "sdp" "s" id "t" (by decide) (by decide),
      getKey_renameTruthyWith_dst _ "type" "t" id (by decide)]
  have hCtype : getKey (renameTruthyWith (renameTruthyWith (renameTruthyWith o
        "type" "t" id) "sdp" "s" id) "candidates" "c" compactNonRoot) "type"
      = match getKey o "type" with
        | some v => if truthy v then none else some v
        | none => none := by
    rw [getKey_renameTruthyWith_other _ "candidates" "c" compactNonRoot "type" (by decide) (by decide),
      getKey_renameTruthyWith_other _ "sdp" "s" id "type" (by decide) (by decide),
      getKey_renameTruthyWith_src _ "type" "t" id (by decide)]
  have hCs : getKey (renameTruthyWith (renameTruthyWith (renameTruthyWith o
        "type" "t" id) "sdp" "s" id) "candidates" "c" compactNonRoot) "s"
      = match getKey o "sdp" with
        | some v => if truthy v then some (id v) else getKey o "s"
        | none => getKey o "s" := by
    rw [getKey_renameTruthyWith_other _ "candidates" "c" compactNonRoot "s" (by decide) (by decide),
      getKey_renameTruthyWith_dst _ "sdp" "s" id (by decide),
      getKey_renameTruthyWith_other _ "type" "t" id "sdp" (by decide) (by decide),
      getKey_renameTruthyWith_other _ "type" "t" id "s" (by decide) (by decide)]
  have hCsdp : getKey (renameTruthyWith (renameTruthyWith (renameTruthyWith o
        "type" "t" id) "sdp" "s" id) "candidates" "c" compactNonRoot) "sdp"
      = match getKey o "sdp" with
        | some v => if truthy v then none else some v
        | none => none := by
    rw [getKey_renameTruthyWith_other _ "candidates" "c" compactNonRoot "sdp" (by decide) (by decide),
      getKey_renameTruthyWith_src _ "sdp" "s" id (by decide),
      getKey_renameTruthyWith_other _ "type" "t" id "sdp" (by decide) (by decide)]
  have hCc : getKey (renameTruthyWith (renameTruthyWith (renameTruthyWith o
        "type" "t" id) "sdp" "s" id) "candidates" "c" compactNonRoot) "c"
      = match getKey o "candidates" with
        | some v => if truthy v then some (compactNonRoot v) else getKey o "c"
        | none => getKey o "c" := by
    rw [getKey_renameTruthyWith_dst _ "candidates" "c" compactNonRoot (by decide),
      getKey_renameTruthyWith_other _ "sdp" "s" id "candidates" (by decide) (by decide),
      getKey_renameTruthyWith_other _ "type" "t" id "candidates" (by decide) (by decide),
      getKey_renameTruthyWith_other _ "sdp" "s" id "c" (by decide) (by decide),
      getKey_renameTruthyWith_other _ "type" "t" id "c" (by decide) (by decide)]
  have hCcands : getKey (renameTruthyWith (renameTruthyWith (renameTruthyWith o
        "type" "t" id) "sdp" "s" id) "candidates" "c" compactNonRoot) "candidates"
      = match getKey o "candidates" with
        | some v => if truthy v then none else some v
        | none => none := by
    rw [getKey_renameTruthyWith_src _ "candidates" "c" compactNonRoot (by decide),
      getKey_renameTruthyWith_other _ "sdp" "s" id "candidates" (by decide) (by decide),
      getKey_renameTruthyWith_other _ "type" "t" id "candidates" (by decide) (by decide)]
  refine ⟨?_, ?_, ?_, ?_, ?_, ?_⟩
  · rw [getKey_renameTruthyWith_other _ "c" "candidates" expandNonRoot "type" (by decide) (by decide),
      getKey_renameTruthyWith_other _ "s" "sdp" id "type" (by decide) (by decide),
      getKey_renameTruthyWith_dst _ "t" "type" id (by decide), hCt, hCtype]
    rcases hv : getKey o "type" with _ | v
    · simp [ht]
    · cases htv : truthy v
      · simp [htv, ht]
      · simp [htv]
  · rw [getKey_renameTruthyWith_other _ "c" "candidates" expandNonRoot "sdp" (by decide) (by decide),
      getKey_renameTruthyWith_dst _ "s" "sdp" id (by decide),
      getKey_renameTruthyWith_other _ "t" "type" id "s" (by decide) (by decide),
      getKey_renameTruthyWith_other _ "t" "type" id "sdp" (by decide) (by decide),
      hCs, hCsdp]
    rcases hv : getKey o "sdp" with _ | v
    · simp [hs]
    · cases htv : truthy v
      · simp [htv, hs]
      · simp [htv]
  · rw [getKey_renameTruthyWith_dst _ "c" "candidates" expandNonRoot (by decide),
      getKey_renameTruthyWith_other _ "s" "sdp" id "c" (by decide) (by decide),
      getKey_renameTruthyWith_other _ "t" "type" id "c" (by decide) (by decide),
      getKey_renameTruthyWith_other _ "s" "sdp" id "candidates" (by decide) (by decide),
      getKey_renameTruthyWith_other _ "t" "type" id "candidates" (by decide) (by decide),
      hCc, hCcands]
    rcases hv : getKey o "candidates" with _ | v
    · simp [hc]
    · cases htv : truthy v
      · simp [htv, hc]
      · simp [htv, truthy_compactNonRoot]
  · rw [getKey_renameTruthyWith_other _ "c" "candidates" expandNonRoot "t" (by decide) (by decide),
      getKey_renameTruthyWith_other _ "s" "sdp" id "t" (by decide) (by decide),
      getKey_renameTruthyWith_src _ "t" "type" id (by decide), hCt]
    rcases hv : getKey o "type" with _ | v
    · simp [ht]
    · cases htv : truthy v
      · simp [htv, ht]
      · simp [htv]
  · rw [getKey_renameTruthyWith_other _ "c" "candidates" expandNonRoot "s" (by decide) (by decide),
      getKey_renameTruthyWith_src _ "s" "sdp" id (by decide),
      getKey_renameTruthyWith_other _ "t" "type" id "s" (by decide) (by decide),
      hCs]
    rcases hv : getKey o "sdp" with _ | v
    · simp [hs]
    · cases htv : truthy v
      · simp [htv, hs]
      · simp [htv]
  · rw [getKey_renameTruthyWith_src _ "c" "candidates" expandNonRoot (by decide),
      getKey_renameTruthyWith_other _ "s" "sdp" id "c" (by decide) (by decide),
      getKey_renameTruthyWith_other _ "t" "type" id "c" (by decide) (by decide),
      hCc]
    rcases hv : getKey o "candidates" with _ | v
    · simp [hc]
    · cases htv : truthy v
      · simp [htv, hc]
      · simp [htv, truthy_compactNonRoot]

/-- The codec roundtrip on a well-formed payload, up to field order. -/
theorem normSignaling_roundtrip (x : JVal) (hx : wellFormed x = true) :
    normSignaling (expandSignaling (compactSignaling x)) = normSignaling x := by
  cases x with
  | str s => simp [wellFormed] at hx
  | num n => simp [wellFormed] at hx
  | bool b => simp [wellFormed] at hx
  | null => simp [wellFormed] at hx
  | arr items => simp [wellFormed] at hx
  | obj o =>
    simp only [wellFormed, Bool.and_eq_true] at hx
    have hsub := hx.1
    have hwfc := hx.2
    have ht : getKey o "t" = none :=
      getKey_eq_none_of_keys rootKeys "t" (by decide) o hsub
    have hs : getKey o "s" = none :=
      getKey_eq_none_of_keys rootKeys "s" (by decide) o hsub
    have hc : getKey o "c" = none :=
      getKey_eq_none_of_keys rootKeys "c" (by decide) o hsub
    obtain ⟨l1, l2, l3, l4, l5, l6⟩ := expandObjRoot_compactObjRoot_lookups o ht hs hc
    show normSignaling (.obj (expandObjRoot (compactObjRoot o))) = normSignaling (.obj o)
    simp only [normSignaling]
    rw [l1, l2, l3, l4, l5, l6, ht, hs, hc]
    rcases hv : getKey o "candidates" with _ | v
    · rfl
    · rw [hv] at hwfc
      cases htv : truthy v
      · simp [htv]
      · simp [htv, normCand_roundtrip v (by simpa using hwfc)]

/-! ### Claim theorems: signaling codec -/

/-- C5: for every well-formed signaling payload (top-level keys within
`type`/`sdp`/`candidates`, candidate keys within
`candidate`/`sdpMid`/`sdpMLineIndex`, recursively through arrays),
`expandSignaling (compactSignaling x)` is deep-equal to `x` — equal
canonical forms, field order aside; and a key outside the full key universe
of the codec passes through both object transforms unchanged, at root and
at candidate level. -/
theorem c5_compact_expand_roundtrip (x : JVal) (o oc : JObj) (k kc : String)
    (hx : wellFormed x = true)
    (hk : rootAllKeys.contains k = false)
    (hkc : candAllKeys.contains kc = false) :
    normSignaling (expandSignaling (compactSignaling x)) = normSignaling x
    ∧ getKey (compactObjRoot o) k = getKey o k
    ∧ getKey (expandObjRoot o) k = getKey o k
    ∧ getKey (compactObjNR oc) kc = getKey oc kc
    ∧ getKey (expandObjNR oc) kc = getKey oc kc := by
  have hk' : ¬ k ∈ rootAllKeys := by simpa using hk
  have hkc' : ¬ kc ∈ candAllKeys := by simpa using hkc
  have hr : ∀ s, s ∈ rootAllKeys → ¬ s = k := fun s hs hh => hk' (hh ▸ hs)
  have hcn : ∀ s, s ∈ candAllKeys → ¬ s = kc := fun s hs hh => hkc' (hh ▸ hs)
  refine ⟨normSignaling_roundtrip x hx, ?_, ?_, ?_, ?_⟩
  · unfold compactObjRoot
    simp only [renameTruthy]
    rw [getKey_renameTruthyWith_other _ "candidates" "c" compactNonRoot k
        (hr "candidates" (by decide)) (hr "c" (by decide)),
      getKey_renameTruthyWith_other _ "sdp" "s" id k
        (hr "sdp" (by decide)) (hr "s" (by decide)),
      getKey_renameTruthyWith_other _ "type" "t" id k
        (hr "type" (by decide)) (hr "t" (by decide))]
  · unfold expandObjRoot
    simp only [renameTruthy]
    rw [getKey_renameTruthyWith_other _ "c" "candidates" expandNonRoot k
        (hr "c" (by decide)) (hr "candidates" (by decide)),
      getKey_renameTruthyWith_other _ "s" "sdp" id k
        (hr "s" (by decide)) (hr "sdp" (by decide)),
      getKey_renameTruthyWith_other _ "t" "type" id k
        (hr "t" (by decide)) (hr "type" (by decide))]
  · unfold compactObjNR
    simp only [renameTruthy]
    rw [getKey_renamePresent_other _ "sdpMLineIndex" "i" kc
        (hcn "sdpMLineIndex" (by decide)) (hcn "i" (by decide)),
      getKey_renameTruthyWith_other _ "sdpMid" "m" id kc
        (hcn "sdpMid" (by decide)) (hcn "m" (by decide)),
      getKey_renameTruthyWith_other _ "candidate" "c" id kc
        (hcn "candidate" (by decide)) (hcn "c" (by decide))]
  · unfold expandObjNR
    simp only [renameTruthy]
    rw [getKey_renamePresent_other _ "i" "sdpMLineIndex" kc
        (hcn "i" (by decide)) (hcn "sdpMLineIndex" (by decide)),
      getKey_renameTruthyWith_other _ "m" "sdpMid" id kc
        (hcn "m" (by decide)) (hcn "sdpMid" (by decide)),
      getKey_renameTruthyWith_other _ "c" "candidate" id kc
        (hcn "c" (by decide)) (hcn "candidate" (by decide))]

/-- C5 witness: a complete offer payload with one candidate, plus unknown
keys `hello` / `extra`. -/
theorem c5_compact_expand_roundtrip_witness :
    normSignaling (expandSignaling (compactSignaling (.obj [("type", .str "offer"),
        ("sdp", .str "v=0"), ("candidates", .arr [.obj [("candidate", .str "c0"),
        ("sdpMid", .str "0"), ("sdpMLineIndex", .num 0)]])])))
      = normSignaling (.obj [("type", .str "offer"), ("sdp", .str "v=0"),
          ("candidates", .arr [.obj [("candidate", .str "c0"), ("sdpMid", .str "0"),
          ("sdpMLineIndex", .num 0)]])])
    ∧ getKey (compactObjRoot [("hello", .str "world")]) "hello"
        = getKey [("hello", .str "world")] "hello"
    ∧ getKey (expandObjRoot [("hello", .str "world")]) "hello"
        = getKey [("hello", .str "world")] "hello"
    ∧ getKey (compactObjNR [("extra", .num 7)]) "extra"
        = getKey [("extra", .num 7)] "extra"
    ∧ getKey (expandObjNR [("extra", .num 7)]) "extra"
        = getKey [("extra", .num 7)] "extra" :=
  c5_compact_expand_roundtrip
    (.obj [("type", .str "offer"), ("sdp", .str "v=0"),
      ("candidates", .arr [.obj [("candidate", .str "c0"), ("sdpMid", .str "0"),
      ("sdpMLineIndex", .num 0)]])])
    [("hello", .str "world")] [("extra", .num 7)] "hello" "extra"
    (by decide) (by decide) (by decide)

/-! ### Offer/answer kind validation (C9) -/

/-- Outcome of one wizard processing step.  `error` is the
invalid-signaling error path (the catch with the toast); `proceeded` means
the step went on to transport setup — for offers, the
`RTCPeerConnection` is created (only after the kind check passes); for
answers, `setRemoteDescription` is reached. -/
structure SignalOutcome where
  error : Bool
  proceeded : Bool
deriving DecidableEq

/-- The strict comparison value `payload.type` used by the kind checks:
`some s` when the payload is an object whose `type` property is the
string `s`. -/
def payloadKind : JVal → Option String
  | .obj o =>
    match getKey o "type" with
    | some (.str s) => some s
    | _ => none
  | _ => none

/-- Models `processScannedOffer` on a complete scanned payload, after
`decompressSignalingData` (`parsed` is the JSON parse of the payload,
`none` when `JSON.parse` threw): the payload is expanded and rejected with
the invalid-signaling error unless `offerData.type === 'offer'`; no peer
connection is created on the error path. -/
def processScannedOffer (parsed : Option JVal) : SignalOutcome :=
  match parsed with
  | none => ⟨true, false⟩
  | some v =>
    if payloadKind (expandSignaling v) = some "offer" then ⟨false, true⟩
    else ⟨true, false⟩

/-- Models `processAnswerText` on a complete scanned payload, after
`decompressSignalingData`: rejected with the invalid-signaling error
unless `answerData.type === 'answer'`. -/
def processAnswerText (parsed : Option JVal) : SignalOutcome :=
  match parsed with
  | none => ⟨true, false⟩
  | some v =>
    if payloadKind (expandSignaling v) = some "answer" then ⟨false, true⟩
    else ⟨true, false⟩

/-- C9: accepting an offer fails with the invalid-signaling error for every
complete payload whose kind is not `offer` — and then creates no peer
connection — and applying an answer fails likewise for every complete
payload whose kind is not `answer`; payloads of the correct kind are
processed, and unparseable payloads error out. -/
theorem c9_kind_validation (v₁ v₂ w₁ w₂ : JVal)
    (h1 : payloadKind (expandSignaling v₁) ≠ some "offer")
    (h2 : payloadKind (expandSignaling v₂) = some "offer")
    (h3 : payloadKind (expandSignaling w₁) ≠ some "answer")
    (h4 : payloadKind (expandSignaling w₂) = some "answer") :
    processScannedOffer (some v₁) = ⟨true, false⟩
    ∧ processScannedOffer (some v₂) = ⟨false, true⟩
    ∧ processScannedOffer none = ⟨true, false⟩
    ∧ processAnswerText (some w₁) = ⟨true, false⟩
    ∧ processAnswerText (some w₂) = ⟨false, true⟩
    ∧ processAnswerText none = ⟨true, false⟩ := by
  refine ⟨?_, ?_, rfl, ?_, ?_, rfl⟩
  · simp [processScannedOffer, h1]
  · simp [processScannedOffer, h2]
  · simp [processAnswerText, h3]
  · simp [processAnswerText, h4]

/-- C9 witness: an answer payload fed to the offer path, a compacted offer
payload (`t` key) fed to the offer path, and the mirror cases for the
answer path. -/
theorem c9_kind_validation_witness :
    processScannedOffer (some (.obj [("type", .str "answer")])) = ⟨true, false⟩
    ∧ processScannedOffer (some (.obj [("t", .str "offer")])) = ⟨false, true⟩
    ∧ processScannedOffer none = ⟨true, false⟩
    ∧ processAnswerText (some (.obj [("type", .str "offer")])) = ⟨true, false⟩
    ∧ processAnswerText (some (.obj [("t", .str "answer")])) = ⟨false, true⟩
    ∧ processAnswerText none = ⟨true, false⟩ :=
  c9_kind_validation (.obj [("type", .str "answer")]) (.obj [("t", .str "offer")])
    (.obj [("type", .str "offer")]) (.obj [("t", .str "answer")])
    (by decide) (by decide) (by decide) (by decide)

end KittenNote
